import Mathlib

/-!
Verification of the start-menu extension's data-store core.

The development shallowly embeds the store logic of the two source files
(`prefs.js`, the preferences editor, and the shell extension file) in Lean:

* JavaScript `Map` objects become association lists with JS `Map.set` /
  `Map.delete` / `Map.get` semantics (`setKey`, `delKey`, `getKey`);
* JSON values become the inductive `Json`; `JSON.stringify` becomes
  `printJson` / `stringifyJson` and `JSON.parse` becomes `jsonParse`
  (numbers are modeled as integers, the only numbers this program writes);
* the category store becomes `CategoryStore` with the operations
  `loadCategories`, `saveCategoriesToFile`, `cleanupCategories`,
  `moveSelectedCategory`, the add/update handler and the close-button
  handler from `prefs.js`;
* the recents store becomes a list of raw `Json` records with
  `loadRecents` and `bumpRecent` from the shell extension file;
* the shared debounce timer of the two file watchers becomes the
  `WatcherState` machine.
-/

namespace StartMenu

/-- JSON values as produced by `JSON.parse`.  Numbers are modeled as
integers: every number the program itself writes (category ranks, app
ranks, `Date.now()` timestamps) is an integer. -/
inductive Json where
  | null : Json
  | bool (b : Bool) : Json
  | num (n : Int) : Json
  | str (s : String) : Json
  | arr (elems : List Json) : Json
  | obj (fields : List (String × Json)) : Json

/-- JS `Map.set` / JS object property assignment: if the key is present the
value is updated in place (same position), otherwise the pair is appended. -/
def setKey (l : List (String × α)) (k : String) (v : α) : List (String × α) :=
  match l with
  | [] => [(k, v)]
  | (k', v') :: t => if k' = k then (k', v) :: t else (k', v') :: setKey t k v

/-- JS `Map.get` / object property read: value of the first (and, for a map,
only) entry with the given key. -/
def getKey (l : List (String × α)) (k : String) : Option α :=
  match l with
  | [] => none
  | (k', v) :: t => if k' = k then some v else getKey t k

/-- JS `Map.delete`: removes the entry with the given key. -/
def delKey (l : List (String × α)) (k : String) : List (String × α) :=
  match l with
  | [] => []
  | (k', v) :: t => if k' = k then t else (k', v) :: delKey t k

/-- Keys of an association list, in insertion order. -/
def keysOf (l : List (String × α)) : List String := l.map Prod.fst

/-- The decimal digit characters. -/
def digitChar (n : Nat) : Char :=
  match n with
  | 0 => '0' | 1 => '1' | 2 => '2' | 3 => '3' | 4 => '4'
  | 5 => '5' | 6 => '6' | 7 => '7' | 8 => '8' | _ => '9'

/-- Lowercase hexadecimal digit characters, as emitted by `JSON.stringify`
in `\u00XX` escapes. -/
def hexDigitChar (n : Nat) : Char :=
  match n with
  | 0 => '0' | 1 => '1' | 2 => '2' | 3 => '3' | 4 => '4'
  | 5 => '5' | 6 => '6' | 7 => '7' | 8 => '8' | 9 => '9'
  | 10 => 'a' | 11 => 'b' | 12 => 'c' | 13 => 'd' | 14 => 'e' | _ => 'f'

/-- String-character escaping of `JSON.stringify`: quote and backslash get a
backslash escape, the five named control characters get their short escapes,
all other control characters get a `\u00XX` escape, everything else is
emitted verbatim. -/
def escapeChar (c : Char) : List Char :=
  if c = '"' then ['\\', '"']
  else if c = '\\' then ['\\', '\\']
  else if c = '\x08' then ['\\', 'b']
  else if c = '\t' then ['\\', 't']
  else if c = '\n' then ['\\', 'n']
  else if c = '\x0c' then ['\\', 'f']
  else if c = '\r' then ['\\', 'r']
  else if c.toNat < 32 then
    ['\\', 'u', '0', '0', hexDigitChar (c.toNat / 16), hexDigitChar (c.toNat % 16)]
  else [c]

/-- Escape every character of a string body. -/
def escapeBody : List Char → List Char
  | [] => []
  | c :: cs => escapeChar c ++ escapeBody cs

/-- Decimal digits of a natural number, most significant first (fuel-based
helper). -/
def natDigitsAux : Nat → Nat → List Char
  | 0, _ => []
  | fuel + 1, n =>
    if n < 10 then [digitChar n]
    else natDigitsAux fuel (n / 10) ++ [digitChar (n % 10)]

/-- Decimal digits of a natural number, most significant first. -/
def natDigits (n : Nat) : List Char := natDigitsAux (n + 1) n

/-- Decimal representation of an integer, as `JSON.stringify` prints it. -/
def intChars (i : Int) : List Char :=
  if i < 0 then '-' :: natDigits i.natAbs else natDigits i.natAbs

/-- Comma-separated joining of rendered pieces, as `JSON.stringify` lays out
array elements and object fields. -/
def joinComma : List (List Char) → List Char
  | [] => []
  | [x] => x
  | x :: y :: t => x ++ ',' :: joinComma (y :: t)

/-- Rendering of a JSON value by `JSON.stringify`: no whitespace, object
fields in insertion order. -/
def printJson : Json → List Char
  | .null => "null".data
  | .bool true => "true".data
  | .bool false => "false".data
  | .num i => intChars i
  | .str s => '"' :: (escapeBody s.data ++ ['"'])
  | .arr es => '[' :: (joinComma (es.attach.map (fun e => printJson e.1)) ++ [']'])
  | .obj fs =>
    '\x7b' ::
      (joinComma (fs.attach.map
        (fun f => '"' :: (escapeBody f.1.1.data ++ '"' :: ':' :: printJson f.1.2))) ++
      ['\x7d'])
termination_by j => sizeOf j
decreasing_by
  · have := List.sizeOf_lt_of_mem e.2
    simp_wf
    omega
  · have h1 := List.sizeOf_lt_of_mem f.2
    obtain ⟨⟨k, v⟩, hm⟩ := f
    simp_wf
    simp at h1
    omega

/-- String form of `JSON.stringify`. -/
def stringifyJson (j : Json) : String := String.mk (printJson j)

/-- Decimal digit test on characters. -/
def isDigitCh (c : Char) : Bool := 48 ≤ c.toNat && c.toNat ≤ 57

/-- Numeric value of a decimal digit character. -/
def digitVal (c : Char) : Nat := c.toNat - 48

/-- JSON insignificant whitespace (the four characters RFC 8259 allows). -/
def isJsonWs (c : Char) : Bool := c = ' ' || c = '\t' || c = '\n' || c = '\r'

/-- Skip leading JSON whitespace. -/
def skipWs : List Char → List Char
  | [] => []
  | c :: cs => if isJsonWs c then skipWs cs else c :: cs

/-- Value of a hexadecimal digit character, if it is one. -/
def hexVal (c : Char) : Option Nat :=
  if 48 ≤ c.toNat && c.toNat ≤ 57 then some (c.toNat - 48)
  else if 97 ≤ c.toNat && c.toNat ≤ 102 then some (c.toNat - 87)
  else if 65 ≤ c.toNat && c.toNat ≤ 70 then some (c.toNat - 55)
  else none

/-- Parse the body of a JSON string literal (after the opening quote) up to
and including the closing quote; returns the decoded characters and the
remaining input.  Raw control characters are rejected, as in `JSON.parse`. -/
def parseStringBody : List Char → Option (List Char × List Char)
  | [] => none
  | c :: cs =>
    if c = '"' then some ([], cs)
    else if c = '\\' then
      match cs with
      | [] => none
      | e :: cs2 =>
        if e = '"' then (fun r => ('"' :: r.1, r.2)) <$> parseStringBody cs2
        else if e = '\\' then (fun r => ('\\' :: r.1, r.2)) <$> parseStringBody cs2
        else if e = '/' then (fun r => ('/' :: r.1, r.2)) <$> parseStringBody cs2
        else if e = 'b' then (fun r => ('\x08' :: r.1, r.2)) <$> parseStringBody cs2
        else if e = 'f' then (fun r => ('\x0c' :: r.1, r.2)) <$> parseStringBody cs2
        else if e = 'n' then (fun r => ('\n' :: r.1, r.2)) <$> parseStringBody cs2
        else if e = 'r' then (fun r => ('\r' :: r.1, r.2)) <$> parseStringBody cs2
        else if e = 't' then (fun r => ('\t' :: r.1, r.2)) <$> parseStringBody cs2
        else if e = 'u' then
          match cs2 with
          | h1 :: h2 :: h3 :: h4 :: cs3 =>
            match hexVal h1, hexVal h2, hexVal h3, hexVal h4 with
            | some a, some b, some c3, some d =>
              (fun r => (Char.ofNat (((a * 16 + b) * 16 + c3) * 16 + d) :: r.1, r.2)) <$>
                parseStringBody cs3
            | _, _, _, _ => none
          | _ => none
        else none
    else if c.toNat < 32 then none
    else (fun r => (c :: r.1, r.2)) <$> parseStringBody cs

/-- Collect a maximal run of decimal digit characters. -/
def takeDigits : List Char → List Char × List Char
  | [] => ([], [])
  | c :: cs =>
    if isDigitCh c then
      ((c :: (takeDigits cs).1), (takeDigits cs).2)
    else ([], c :: cs)

/-- Numeric value of a digit run. -/
def digitsToNat (ds : List Char) : Nat := ds.foldl (fun a c => a * 10 + digitVal c) 0

/-- Parse the digits of a JSON number after an optional minus sign.  A
leading zero must be the whole integer part, as in the JSON grammar.
Fractions and exponents are not modeled (the program only writes
integers). -/
def parseNumAfterSign : List Char → Option (Nat × List Char)
  | [] => none
  | c :: cs =>
    if c = '0' then some (0, cs)
    else if isDigitCh c then some (digitsToNat (c :: (takeDigits cs).1), (takeDigits cs).2)
    else none

/-- Parse a JSON integer literal. -/
def parseNumber : List Char → Option (Json × List Char)
  | [] => none
  | c :: cs =>
    if c = '-' then (fun r => (Json.num (-(r.1 : Int)), r.2)) <$> parseNumAfterSign cs
    else (fun r => (Json.num (r.1 : Int), r.2)) <$> parseNumAfterSign (c :: cs)

/-- Match a literal character sequence at the head of the input. -/
def matchLit : List Char → List Char → Option (List Char)
  | [], rest => some rest
  | _ :: _, [] => none
  | l :: ls, c :: cs => if c = l then matchLit ls cs else none

/-- Collapse duplicate object keys the way `JSON.parse` builds a JS object:
property position from the first occurrence, value from the last. -/
def collapseFields (fs : List (String × Json)) : List (String × Json) :=
  fs.foldl (fun acc kv => setKey acc kv.1 kv.2) []

mutual

/-- Fuel-based recursive-descent parser for a single JSON value; the model
of `JSON.parse`.  The fuel only bounds recursion and is always sufficient
when it exceeds the input length. -/
def parseValue : Nat → List Char → Option (Json × List Char)
  | 0, _ => none
  | fuel + 1, cs0 =>
    match skipWs cs0 with
    | [] => none
    | c :: cs =>
      if c = 'n' then (fun r => (Json.null, r)) <$> matchLit ['u', 'l', 'l'] cs
      else if c = 't' then (fun r => (Json.bool true, r)) <$> matchLit ['r', 'u', 'e'] cs
      else if c = 'f' then (fun r => (Json.bool false, r)) <$> matchLit ['a', 'l', 's', 'e'] cs
      else if c = '"' then
        (fun r => (Json.str (String.mk r.1), r.2)) <$> parseStringBody cs
      else if c = '[' then
        match skipWs cs with
        | ']' :: rest => some (Json.arr [], rest)
        | cs2 => (fun r => (Json.arr r.1, r.2)) <$> parseElemSeq fuel cs2
      else if c = '\x7b' then
        match skipWs cs with
        | '\x7d' :: rest => some (Json.obj [], rest)
        | cs2 => (fun r => (Json.obj (collapseFields r.1), r.2)) <$> parseFieldSeq fuel cs2
      else if c = '-' || isDigitCh c then parseNumber (c :: cs)
      else none

/-- Parse a nonempty comma-separated element sequence up to and including
the closing bracket. -/
def parseElemSeq : Nat → List Char → Option (List Json × List Char)
  | 0, _ => none
  | fuel + 1, cs =>
    match parseValue fuel cs with
    | none => none
    | some (v, rest) =>
      match skipWs rest with
      | ',' :: rest2 => (fun r => (v :: r.1, r.2)) <$> parseElemSeq fuel rest2
      | ']' :: rest2 => some ([v], rest2)
      | _ => none

/-- Parse a nonempty comma-separated field sequence up to and including the
closing brace. -/
def parseFieldSeq : Nat → List Char → Option (List (String × Json) × List Char)
  | 0, _ => none
  | fuel + 1, cs =>
    match skipWs cs with
    | '"' :: cs2 =>
      match parseStringBody cs2 with
      | none => none
      | some (key, rest) =>
        match skipWs rest with
        | ':' :: rest2 =>
          match parseValue fuel rest2 with
          | none => none
          | some (v, rest3) =>
            match skipWs rest3 with
            | ',' :: rest4 =>
              (fun r => ((String.mk key, v) :: r.1, r.2)) <$> parseFieldSeq fuel rest4
            | '\x7d' :: rest4 => some ([(String.mk key, v)], rest4)
            | _ => none
        | _ => none
    | _ => none

end

/-- The model of `JSON.parse`: parse one value and require only trailing
whitespace after it; `none` models a thrown `SyntaxError`. -/
def jsonParse (s : String) : Option Json :=
  match parseValue (s.length + 1) s.data with
  | some (v, rest) => if (skipWs rest).isEmpty then some v else none
  | none => none

/-- JavaScript whitespace as removed by `String.prototype.trim` (WhiteSpace
and LineTerminator code points). -/
def isJsWsCh (c : Char) : Bool :=
  (9 ≤ c.toNat && c.toNat ≤ 13) || c.toNat = 32 || c.toNat = 160 ||
  c.toNat = 0x1680 || (0x2000 ≤ c.toNat && c.toNat ≤ 0x200a) ||
  c.toNat = 0x2028 || c.toNat = 0x2029 || c.toNat = 0x202f ||
  c.toNat = 0x205f || c.toNat = 0x3000 || c.toNat = 0xfeff

/-- JS `text.split('\n')` on the character level: splits at every newline
and keeps empty pieces (so a trailing newline yields a final empty piece). -/
def splitNl : List Char → List (List Char)
  | [] => [[]]
  | c :: cs =>
    if c = '\n' then [] :: splitNl cs
    else
      match splitNl cs with
      | [] => [[c]]
      | l :: ls => (c :: l) :: ls

/-- The line list both loaders work on:
`text.split('\n').filter(line => line.trim().length > 0)` — a line survives
the filter exactly when some of its characters is not JS whitespace. -/
def linesOf (text : String) : List String :=
  ((splitNl text.data).map String.mk).filter (fun l => l.data.any (fun c => !(isJsWsCh c)))

/-- JS `lines.join('\n')`. -/
def joinNl : List String → String
  | [] => ""
  | [l] => l
  | l :: l' :: ls => l ++ "\n" ++ joinNl (l' :: ls)

/-- An app entry of a category: `{id, name, rank}` (`prefs.js`, add-handler
`apps.push({ id: row.id, name: row.name, rank: row.selectionRank })`). -/
structure AppEntry where
  id : String
  name : String
  rank : Int
deriving DecidableEq

/-- A category record: `{name, rank, apps}` with `rank: integer|null`
(`null` marks the special unranked categories). -/
structure Category where
  name : String
  rank : Option Int
  apps : List AppEntry
deriving DecidableEq

/-- The in-memory category map (a JS `Map` keyed by category name,
insertion-ordered). -/
abbrev CategoryStore := List (String × Category)

/-- JSON form of an app entry, field order as pushed by the add-handler. -/
def appToJson (a : AppEntry) : Json :=
  Json.obj [("id", .str a.id), ("name", .str a.name), ("rank", .num a.rank)]

/-- JSON form of a category rank (`null` or a number). -/
def rankToJson : Option Int → Json
  | none => .null
  | some r => .num r

/-- JSON form of a category record, fields in the schema order
`{name, rank, apps}`. -/
def categoryToJson (c : Category) : Json :=
  Json.obj [("name", .str c.name), ("rank", rankToJson c.rank),
            ("apps", .arr (c.apps.map appToJson))]

/-- Property read on a parsed JSON value (JS `obj.field`). -/
def jsonGetField (j : Json) (k : String) : Option Json :=
  match j with
  | .obj fs => getKey fs k
  | _ => none

/-- String field of a parsed object, with the empty string standing in for
the JS `undefined` of a missing or non-string field. -/
def getStrD (j : Json) (k : String) : String :=
  match jsonGetField j k with
  | some (.str s) => s
  | _ => ""

/-- Integer field of a parsed object, `0` standing in for `undefined`. -/
def getIntD (j : Json) (k : String) : Int :=
  match jsonGetField j k with
  | some (.num n) => n
  | _ => 0

/-- Rank field of a parsed object: a number or `null`/missing. -/
def getRankD (j : Json) (k : String) : Option Int :=
  match jsonGetField j k with
  | some (.num n) => some n
  | _ => none

/-- Typed view of a parsed app-entry object (the JS code uses the raw parsed
object; the view formalizes the field accesses it performs). -/
def appOfJson (j : Json) : AppEntry :=
  { id := getStrD j "id", name := getStrD j "name", rank := getIntD j "rank" }

/-- Typed view of the `apps` field of a parsed category object. -/
def appsOfJson (j : Json) : List AppEntry :=
  match jsonGetField j "apps" with
  | some (.arr es) => es.map appOfJson
  | _ => []

/-- Typed view of a parsed category object. -/
def categoryOfJson (j : Json) : Category :=
  { name := getStrD j "name", rank := getRankD j "rank", apps := appsOfJson j }

/-- The per-line loop of `loadCategories` (`prefs.js` lines 129-132):
`lines.forEach(line => { const category = JSON.parse(line);
categoriesMap.set(category.name, category); })`.  A line that fails to
parse throws, so the loop stops and the map keeps the entries inserted so
far. -/
def loadCategoriesLines : List String → CategoryStore → CategoryStore
  | [], acc => acc
  | l :: ls, acc =>
    match jsonParse l with
    | none => acc
    | some j => loadCategoriesLines ls (setKey acc (categoryOfJson j).name (categoryOfJson j))

/-- Model of `loadCategories` (`prefs.js` lines 117-136).  `contents = none` models a
missing/unreadable file: `load_contents` throws before the map is cleared,
the `catch` only logs, so the prior map is returned unchanged.  On readable
contents the map is cleared (`categoriesMap.clear()`) and refilled line by
line. -/
def loadCategories (contents : Option String) (prior : CategoryStore) : CategoryStore :=
  match contents with
  | none => prior
  | some text => loadCategoriesLines (linesOf text) []

/-- Model of `saveCategoriesToFile` (`prefs.js` lines 141-160): one JSON line per
category in map order, joined with newlines, plus a trailing newline.
Returns the file text written. -/
def saveCategoriesToFile (store : CategoryStore) : String :=
  joinNl (store.map (fun e => stringifyJson (categoryToJson e.2))) ++ "\n"

/-- JS truthiness of a parsed JSON value. -/
def jsTruthy : Json → Bool
  | .null => false
  | .bool b => b
  | .num n => !(n = 0)
  | .str s => !(s = "")
  | .arr _ => true
  | .obj _ => true

/-- The record filter of `loadRecentsFromDisk`:
`recent && typeof recent.id === 'string'`. -/
def isValidRecent (j : Json) : Bool :=
  jsTruthy j &&
    (match jsonGetField j "id" with
     | some (.str _) => true
     | _ => false)

/-- Capacity of the recents list (`MAX_RECENTS = 15`). -/
def MAX_RECENTS : Nat := 15

/-- Model of `loadRecentsFromDisk` (shell extension file, lines 335-353).  The lines
are mapped through `JSON.parse` first (`lines.map(line => JSON.parse(line))`),
so one unparsable line throws and the `catch` sets `recents = []`; records
that parse but are not valid are filtered out individually; the result is
truncated to capacity.  A missing file also yields `[]`. -/
def loadRecents (contents : Option String) : List Json :=
  match contents with
  | none => []
  | some text =>
    match (linesOf text).mapM jsonParse with
    | none => []
    | some parsed => (parsed.filter isValidRecent).take MAX_RECENTS

/-- Model of `saveRecentsToDisk` (shell extension file, lines 358-366): one JSON line
per record, no trailing newline.  Returns the file text written. -/
def saveRecentsToDisk (recents : List Json) : String :=
  joinNl (recents.map stringifyJson)

/-- JS `id.endsWith(suffix)`. -/
def strEndsWith (s suf : String) : Bool := suf.data.isSuffixOf s.data

/-- Model of `bumpRecent` (shell extension file, lines 372-383).  Returns the new
recents list and whether `saveRecentsToDisk` was called.  An empty id or an
id without the `.desktop` suffix returns early: no list change, no save.
Otherwise entries whose `id` equals the given id are filtered out, a fresh
`{id, ts}` record is prepended, and the list is truncated to capacity
before saving. -/
def bumpRecent (desktopId : String) (now : Int) (recents : List Json) :
    List Json × Bool :=
  if desktopId = "" || !(strEndsWith desktopId ".desktop") then (recents, false)
  else
    ((Json.obj [("id", .str desktopId), ("ts", .num now)] ::
        recents.filter (fun r =>
          match jsonGetField r "id" with
          | some (.str s) => !(s = desktopId)
          | _ => true)).take MAX_RECENTS,
     true)

/-- Sequence of `bump` calls: each element is the bumped id together with
the `Date.now()` value observed by that call. -/
def applyBumps (bumps : List (String × Int)) (recents : List Json) : List Json :=
  bumps.foldl (fun acc b => (bumpRecent b.1 b.2 acc).1) recents

/-- Normalization `app.id.endsWith('.desktop') ? app.id : app.id + '.desktop'`
(`cleanupCategories`, `prefs.js` line 178). -/
def desktopIdOf (id : String) : String :=
  if strEndsWith id ".desktop" then id else id ++ ".desktop"

/-- The JS sort comparator `(a, b) => a.rank - b.rank` on app entries, as
the Boolean order used by a stable sort. -/
def appRankLe (a b : AppEntry) : Bool := a.rank ≤ b.rank

/-- Reassign ranks `i, i+1, ...` along a list
(`validApps.forEach((app, index) => { app.rank = index + 1; })` starts at
`i = 1`). -/
def reRankFrom (i : Nat) : List AppEntry → List AppEntry
  | [] => []
  | a :: as => { a with rank := (i : Int) } :: reRankFrom (i + 1) as

/-- Per-category body of `cleanupCategories` (`prefs.js` lines 169-197):
skip categories without apps; filter out apps failing the installed
predicate (applied to the normalized desktop id); if any app was removed,
sort the survivors by rank and renumber them `1..M`. -/
def cleanupCategory (installed : String → Bool) (c : Category) : Category :=
  if c.apps.isEmpty then c
  else
    if (c.apps.filter (fun a => installed (desktopIdOf a.id))).length = c.apps.length then c
    else
      let survivors := (c.apps.filter (fun a => installed (desktopIdOf a.id))).mergeSort appRankLe
      { c with apps := reRankFrom 1 survivors }

/-- Whether `cleanupCategories` removes something from a category. -/
def categoryShrinks (installed : String → Bool) (c : Category) : Bool :=
  !(c.apps.isEmpty) &&
    !((c.apps.filter (fun a => installed (desktopIdOf a.id))).length = c.apps.length)

/-- Model of `cleanupCategories` (`prefs.js` lines 166-200): updates every category
in place and reports whether any changes were made.  The installed
predicate models `Gio.DesktopAppInfo.new(desktopId) !== null &&
appInfo.should_show()` as a function of the desktop id. -/
def cleanupCategories (installed : String → Bool) (store : CategoryStore) :
    CategoryStore × Bool :=
  (store.map (fun e => (e.1, cleanupCategory installed e.2)),
   store.any (fun e => categoryShrinks installed e.2))

/-- The non-null category ranks, in map order
(`Array.from(categories.values()).map(cat => cat.rank).filter(rank => rank !== null)`). -/
def catRanks (store : CategoryStore) : List Int :=
  store.filterMap (fun e => e.2.rank)

/-- The value `Math.max(0, ...ranks)` of the add-handler (`prefs.js` lines 708-713). -/
def maxRankOf (store : CategoryStore) : Int :=
  (catRanks store).foldr max 0

/-- Add-handler, new-category path (`prefs.js` lines 677-777, `isUpdate`
false): the selected apps are sorted by selection rank, the category gets
rank `max(existing non-null ranks, 0) + 1` and is `set` into the map. -/
def addHandlerNewCategory (store : CategoryStore) (name : String)
    (selApps : List AppEntry) : CategoryStore :=
  setKey store name
    { name := name, rank := some (maxRankOf store + 1),
      apps := selApps.mergeSort appRankLe }

/-- Index of a key in the map's entry order
(`Array.from(categories.keys()).indexOf(oldCategoryName)`; `none` models
the `-1` of a missing key). -/
def idxOfKey (l : List (String × α)) (k : String) : Option Nat :=
  match l with
  | [] => none
  | e :: t => if e.1 = k then some 0 else (idxOfKey t k).map (· + 1)

/-- Rebuild `new Map(entriesArray)`: entries folded with `Map.set`, so a duplicated
key keeps its first position and last value. -/
def dedupEntries (l : CategoryStore) : CategoryStore :=
  l.foldl (fun acc e => setKey acc e.1 e.2) []

/-- Add-handler, update path (`prefs.js` lines 699-763, `isUpdate` true):
the new rank is `oldCategory?.rank ?? 1`, the entry array is spliced —
remove at the old position, insert the renamed record there — and the map
is rebuilt with `new Map(categoryArray)`.  When the old name is not found
(`indexOf` returns `-1`) the handler falls through to a plain `set`. -/
def addHandlerUpdateCategory (store : CategoryStore) (oldName newName : String)
    (selApps : List AppEntry) : CategoryStore :=
  let newRank : Option Int :=
    match getKey store oldName with
    | some c => match c.rank with | some r => some r | none => some 1
    | none => some 1
  let newCat : Category :=
    { name := newName, rank := newRank, apps := selApps.mergeSort appRankLe }
  match idxOfKey store oldName with
  | none => setKey store newName newCat
  | some pos => dedupEntries (List.insertIdx pos (newName, newCat) (store.eraseIdx pos))

/-- The JS sort comparator `(a, b) => a.rank - b.rank` on categories with
non-null ranks, as the Boolean order used by a stable sort. -/
def catRankLe (a b : Category) : Bool := a.rank.getD 0 ≤ b.rank.getD 0

/-- Names of the ranked categories in ascending rank order (stable over map
order), as visited by the close-button renumbering loop. -/
def rankedSortedNames (store : CategoryStore) : List String :=
  ((store.filter (fun e => e.2.rank.isSome)).mergeSort
    (fun a b => catRankLe a.2 b.2)).map (fun e => e.1)

/-- The renumbering in the close-button handler (`prefs.js` lines 420-427):
every ranked category's rank becomes its position in the rank-sorted order
plus one. -/
def renumberRanks (store : CategoryStore) : CategoryStore :=
  store.map (fun e =>
    match e.2.rank with
    | none => e
    | some _ =>
      (e.1, { e.2 with rank := some (((rankedSortedNames store).indexOf e.1 : Nat) + 1 : Int) }))

/-- Close-button handler's effect on the map (`prefs.js` lines 394-459):
`categories.delete(category.name)` followed by rank renumbering. -/
def removeHandlerCategory (store : CategoryStore) (name : String) : CategoryStore :=
  renumberRanks (delKey store name)

/-- The list built by `moveSelectedCategory` (`prefs.js` lines 246-248):
`Array.from(categories.values()).filter(cat => cat.rank !== null)
.sort((a, b) => a.rank - b.rank)`. -/
def rankedSortedCats (store : CategoryStore) : List Category :=
  ((store.map Prod.snd).filter (fun c => c.rank.isSome)).mergeSort catRankLe

/-- First index of a category with the given name
(`rankedCategories.findIndex(cat => cat.name === categoryName)`; `none`
models `-1`). -/
def findIdxByName (l : List Category) (nm : String) : Option Nat :=
  match l with
  | [] => none
  | c :: t => if c.name = nm then some 0 else (findIdxByName t nm).map (· + 1)

/-- The rank swap at the end of `moveSelectedCategory` (`prefs.js` lines
256-260): the selected category (found by key) takes the target's rank and
the target (found by name) takes the selected one's. -/
def swapRanks (store : CategoryStore) (name : String) (cur target : Category) :
    CategoryStore :=
  store.map (fun e =>
    if e.1 = name then (e.1, { e.2 with rank := target.rank })
    else if e.2.name = target.name then (e.1, { e.2 with rank := cur.rank })
    else e)

/-- Model of `moveSelectedCategory` (`prefs.js` lines 232-277).  Returns the new map
and whether `saveCategoriesToFile` was called.  Categories with `null` rank
and out-of-range neighbor indexes return early with no change and no
save. -/
def moveSelectedCategory (store : CategoryStore) (name : String) (delta : Int) :
    CategoryStore × Bool :=
  match getKey store name with
  | none => (store, false)
  | some cur =>
    match cur.rank with
    | none => (store, false)
    | some _ =>
      match findIdxByName (rankedSortedCats store) name with
      | none => (store, false)
      | some ci =>
        if (ci : Int) + delta < 0 ||
            (((rankedSortedCats store).length : Int) ≤ (ci : Int) + delta) then
          (store, false)
        else
          match (rankedSortedCats store)[((ci : Int) + delta).toNat]? with
          | none => (store, false)
          | some target => (swapRanks store name cur target, true)

/-- Path join `GLib.build_filenamev` for two components. -/
def joinPath (a b : String) : String := a ++ "/" ++ b

/-- The path `filesDir = GLib.build_filenamev([basePath, '.files'])`. -/
def filesDirOf (base : String) : String := joinPath base ".files"

/-- The path `categoriesFilePath` under `filesDir`. -/
def categoriesFilePathOf (base : String) : String :=
  joinPath (filesDirOf base) "categories.jsonl"

/-- The path `recentsFilePath` under `filesDir`. -/
def recentsFilePathOf (base : String) : String :=
  joinPath (filesDirOf base) "recents.jsonl"

/-- File-monitor event discriminators
(`Gio.FileMonitorEvent`, the values the watcher distinguishes). -/
inductive FileMonitorEvent where
  | changed
  | changesDoneHint
  | created
  | attributeChanged
  | deleted
deriving DecidableEq

/-- The event filter of `setupCategoriesFileWatcher` (shell extension file,
lines 870-871): only `CHANGES_DONE_HINT` and `CREATED` qualify. -/
def qualifiesForReload (e : FileMonitorEvent) : Bool :=
  e = FileMonitorEvent.changesDoneHint || e = FileMonitorEvent.created

/-- The events hitting the two watchers that share `reloadTimeoutId`. -/
inductive WatchedEvent where
  | catFileEvent (e : FileMonitorEvent)
  | installedChanged
  | appDirChanged
deriving DecidableEq

/-- Which callback an armed `reloadTimeoutId` will run. -/
inductive TimerKind where
  | categoriesReload
  | appsRefresh
deriving DecidableEq

/-- State of the single shared debounce timer plus counters of how many
times each callback has run. -/
structure WatcherState where
  pending : Option (Nat × TimerKind)
  reloadRuns : Nat
  appRefreshRuns : Nat
deriving DecidableEq

/-- Resting state: no timer armed, no callback has run. -/
def initWatcherState : WatcherState := ⟨none, 0, 0⟩

/-- The delay `RELOAD_DELAY_MS = 500`. -/
def RELOAD_DELAY_MS : Nat := 500

/-- Fire the armed timer: run its callback and clear `reloadTimeoutId`. -/
def firePending (st : WatcherState) : WatcherState :=
  match st.pending with
  | none => st
  | some (_, TimerKind.categoriesReload) =>
    { st with pending := none, reloadRuns := st.reloadRuns + 1 }
  | some (_, TimerKind.appsRefresh) =>
    { st with pending := none, appRefreshRuns := st.appRefreshRuns + 1 }

/-- Fire the armed timer if its expiry time has been reached. -/
def fireDue (now : Nat) (st : WatcherState) : WatcherState :=
  match st.pending with
  | some (t, _) => if t ≤ now then firePending st else st
  | none => st

/-- Which timer (if any) an event arms.  Qualifying categories-file events
arm the categories reload; `installed-changed` and application-directory
events arm the app-list refresh (shell extension file, lines 809-847); both
first `GLib.source_remove` the shared `reloadTimeoutId`. -/
def armKind : WatchedEvent → Option TimerKind
  | WatchedEvent.catFileEvent e =>
    if qualifiesForReload e then some TimerKind.categoriesReload else none
  | WatchedEvent.installedChanged => some TimerKind.appsRefresh
  | WatchedEvent.appDirChanged => some TimerKind.appsRefresh

/-- Handle one event at the given time: a non-arming event does nothing; an
arming event cancels any pending timer and arms a fresh 500 ms one. -/
def handleWatchedEvent (now : Nat) (st : WatcherState) (e : WatchedEvent) :
    WatcherState :=
  match armKind e with
  | none => st
  | some k => { st with pending := some (now + RELOAD_DELAY_MS, k) }

/-- One scheduler step: timers whose expiry has passed fire before the next
event is delivered. -/
def stepWatcher (st : WatcherState) (te : Nat × WatchedEvent) : WatcherState :=
  handleWatchedEvent te.1 (fireDue te.1 st) te.2

/-- Run a timestamped event trace from the resting state; after the trace,
time passes and any still-armed timer fires. -/
def runWatcherTrace (trace : List (Nat × WatchedEvent)) : WatcherState :=
  firePending (trace.foldl stepWatcher initWatcherState)

/-- A file monitor on `watchedPath` receives events for a write to
`writePath` exactly when the two paths are equal; the categories monitor is
`categoriesFile.monitor_file` on `categoriesFilePath` only. -/
def monitorSeesWrite (watchedPath writePath : String) : Bool :=
  watchedPath = writePath

/-- The categories-file watcher's reaction to a disk write: if the write is
to the watched path, a `CHANGES_DONE_HINT` event is delivered and processed,
otherwise the monitor sees nothing and the state is untouched. -/
def watcherStepOnWrite (watchedPath writePath : String) (now : Nat)
    (st : WatcherState) : WatcherState :=
  if monitorSeesWrite watchedPath writePath then
    stepWatcher st (now, WatchedEvent.catFileEvent FileMonitorEvent.changesDoneHint)
  else st

/-- The dense rank sequence `[1, 2, ..., n]` as integers. -/
def rankSeq : Nat → List Int
  | 0 => []
  | n + 1 => rankSeq n ++ [(n : Int) + 1]

/-- Rank density: the multiset of non-null category ranks is exactly
`{1..N}`, `N` the number of ranked categories. -/
def DenseRanks (store : CategoryStore) : Prop :=
  List.Perm (catRanks store) (rankSeq (catRanks store).length)

instance (store : CategoryStore) : Decidable (DenseRanks store) := by
  unfold DenseRanks
  infer_instance

/-- Spec-side description of the recents loader ("malformed lines filtered
out individually rather than aborting the whole parse"): drop the lines
that fail to parse, keep the well-formed records in file order, truncate to
capacity.  Stated from the spec's words, to be compared with
`loadRecents`. -/
def specLoadRecents (contents : Option String) : List Json :=
  match contents with
  | none => []
  | some text =>
    ((((linesOf text).filterMap jsonParse)).filter isValidRecent).take MAX_RECENTS

/-- The lines before the first parse failure. -/
def goodLineRun (ls : List String) : List String :=
  ls.takeWhile (fun l => (jsonParse l).isSome)

/-- The `id` of a recents record, when it is a string (JS
`typeof recent.id === 'string'` view). -/
def recId (j : Json) : Option String :=
  match jsonGetField j "id" with
  | some (.str s) => some s
  | _ => none

/-- The `ts` of a recents record, when it is a number. -/
def recTs (j : Json) : Option Int :=
  match jsonGetField j "ts" with
  | some (.num n) => some n
  | _ => none

/-- The ids of a recents list, in order. -/
def recIds (l : List Json) : List String := l.filterMap recId

/-- The invariant of the recents list: at most 15 entries, every entry a
record with a string id, no id twice, timestamps strictly decreasing (most
recent first). -/
def RecentsInvariant (l : List Json) : Prop :=
  l.length ≤ MAX_RECENTS ∧
  (recIds l).Nodup ∧
  (∀ j ∈ l, (recId j).isSome) ∧
  (∀ j ∈ l, (recTs j).isSome) ∧
  List.Pairwise (fun a b => b < a) (l.filterMap recTs)

/-- All timestamps in a recents list lie strictly below a bound. -/
def TsBelow (l : List Json) (t : Int) : Prop :=
  ∀ j ∈ l, ∀ t', recTs j = some t' → t' < t

/-- The fresh record `{ id: desktopId, ts: Date.now() }` that `bumpRecent`
prepends. -/
def mkRecent (id : String) (ts : Int) : Json :=
  Json.obj [("id", .str id), ("ts", .num ts)]

/-- Timestamp admissibility of a bump sequence: the first bump's clock
reading exceeds every timestamp in the starting list, and clock readings
strictly increase along the sequence. -/
def bumpsApplicable (bumps : List (String × Int)) (l : List Json) : Prop :=
  match bumps with
  | [] => True
  | b :: t => TsBelow l b.2 ∧ List.Chain' (fun x y => x.2 < y.2) (b :: t)

/-- Example category with one app (the store of spec §8's scenarios). -/
def exCatWork : Category := ⟨"Work", some 1, [⟨"a.desktop", "A", 1⟩]⟩

/-- Example empty category of rank 2 (the store of spec §8's scenarios). -/
def exCatPlay : Category := ⟨"Play", some 2, []⟩

/-- Example store `{Work: rank 1, apps [a.desktop]}, {Play: rank 2}`. -/
def exStore : CategoryStore := [("Work", exCatWork), ("Play", exCatPlay)]

/-- A categories file whose first line is a well-formed category record and
whose second line is not JSON. -/
def exBadCatsText : String :=
  "\x7b\"name\":\"Other\",\"rank\":null,\"apps\":[]\x7d\noops"

/-- A recents file whose first line is a well-formed record and whose
second line is not JSON. -/
def exBadRecentsText : String :=
  "\x7b\"id\":\"a.desktop\",\"ts\":1\x7d\nnot json"

/-- The well-formed record on the first line of `exBadRecentsText`. -/
def exGoodRecent : Json := Json.obj [("id", .str "a.desktop"), ("ts", .num 1)]

/-- The event burst of the C4 counterexample: a qualifying categories-file
event, then an application-directory event 100 ms later. -/
def exC4Trace : List (Nat × WatchedEvent) :=
  [(0, WatchedEvent.catFileEvent FileMonitorEvent.changesDoneHint),
   (100, WatchedEvent.appDirChanged)]


/-- The character stream of an object's printed fields (between the
braces). -/
def printedFields (fs : List (String × Json)) : List Char :=
  joinComma (fs.map (fun f => '"' :: (escapeBody f.1.data ++ '"' :: ':' :: printJson f.2)))

/-- The character stream of an array's printed elements (between the
brackets). -/
def printedElems (es : List Json) : List Char :=
  joinComma (es.map printJson)

/-! Lemma section: association lists with JS `Map` semantics. -/

theorem setKey_of_not_mem (l : List (String × α)) (k : String) (v : α)
    (h : k ∉ keysOf l) : setKey l k v = l ++ [(k, v)] := by
  induction l with
  | nil => rfl
  | cons e t ih =>
    obtain ⟨k1, v1⟩ := e
    simp only [keysOf, List.map_cons, List.mem_cons, not_or] at h
    simp only [setKey, List.cons_append]
    rw [if_neg (fun hk => h.1 hk.symm), ih h.2]

theorem keysOf_append (l l' : List (String × α)) :
    keysOf (l ++ l') = keysOf l ++ keysOf l' := by
  simp [keysOf]

theorem getKey_eq_none_iff (l : List (String × α)) (k : String) :
    getKey l k = none ↔ k ∉ keysOf l := by
  induction l with
  | nil => simp [getKey, keysOf]
  | cons e t ih =>
    obtain ⟨k1, v1⟩ := e
    by_cases hk : k1 = k
    · subst hk
      simp [getKey, keysOf]
    · simp only [getKey, if_neg hk, keysOf, List.map_cons, List.mem_cons, not_or, ih]
      exact ⟨fun h => ⟨fun he => hk he.symm, h⟩, fun h => h.2⟩

theorem getKey_mem (l : List (String × α)) (k : String) (v : α)
    (h : getKey l k = some v) : (k, v) ∈ l := by
  induction l with
  | nil => simp [getKey] at h
  | cons e t ih =>
    obtain ⟨k1, v1⟩ := e
    by_cases hk : k1 = k
    · subst hk
      simp [getKey] at h
      simp [h]
    · simp [getKey, hk] at h
      simp [ih h]

theorem mem_keysOf_of_getKey (l : List (String × α)) (k : String) (v : α)
    (h : getKey l k = some v) : k ∈ keysOf l := by
  have := getKey_mem l k v h
  simp only [keysOf, List.mem_map]
  exact ⟨(k, v), this, rfl⟩

theorem getKey_of_mem_nodup (l : List (String × α)) (k : String) (v : α)
    (hnd : (keysOf l).Nodup) (h : (k, v) ∈ l) : getKey l k = some v := by
  induction l with
  | nil => simp at h
  | cons e t ih =>
    obtain ⟨k1, v1⟩ := e
    simp only [keysOf, List.map_cons, List.nodup_cons] at hnd
    rcases List.mem_cons.mp h with h1 | h1
    · obtain ⟨hk, hv⟩ := Prod.mk.injEq .. ▸ h1
      simp [getKey, hk.symm, hv]
    · have hne : k1 ≠ k := by
        intro he
        subst he
        exact hnd.1 (by simpa [keysOf] using List.mem_map_of_mem Prod.fst h1)
      simp [getKey, hne, ih hnd.2 h1]

theorem keysOf_delKey_sublist (l : List (String × α)) (k : String) :
    (keysOf (delKey l k)).Sublist (keysOf l) := by
  induction l with
  | nil => simp [delKey]
  | cons e t ih =>
    obtain ⟨k1, v1⟩ := e
    by_cases hk : k1 = k
    · simp only [delKey, if_pos hk, keysOf, List.map_cons]
      exact (List.sublist_cons_self _ _)
    · simp only [delKey, if_neg hk, keysOf, List.map_cons]
      exact ih.cons₂ _

theorem keysOf_delKey_nodup (l : List (String × α)) (k : String)
    (h : (keysOf l).Nodup) : (keysOf (delKey l k)).Nodup :=
  (keysOf_delKey_sublist l k).nodup h

theorem foldl_setKey_of_nodup (l acc : CategoryStore)
    (h : (keysOf acc ++ keysOf l).Nodup) :
    l.foldl (fun a e => setKey a e.1 e.2) acc = acc ++ l := by
  induction l generalizing acc with
  | nil => simp
  | cons e t ih =>
    have hnot : e.1 ∉ keysOf acc := by
      intro hmem
      have := (List.nodup_append.mp h).2.2
      exact this hmem (by simp [keysOf])
    rw [List.foldl_cons, setKey_of_not_mem acc e.1 e.2 hnot]
    have h2 : (keysOf (acc ++ [(e.1, e.2)]) ++ keysOf t).Nodup := by
      rw [keysOf_append]
      have : keysOf acc ++ keysOf [(e.1, e.2)] ++ keysOf t =
          keysOf acc ++ (e.1 :: keysOf t) := by simp [keysOf]
      rw [this]
      simpa [keysOf, List.nodup_append] using h
    rw [ih _ h2]
    simp

theorem dedupEntries_eq_self (l : CategoryStore) (h : (keysOf l).Nodup) :
    dedupEntries l = l := by
  have := foldl_setKey_of_nodup l [] (by simpa [keysOf] using h)
  simpa [dedupEntries] using this

/-! Lemma section: ranks, density and the maximum rank. -/

theorem rankSeq_length (n : Nat) : (rankSeq n).length = n := by
  induction n with
  | zero => rfl
  | succ n ih => simp [rankSeq, ih]

theorem rankSeq_succ (n : Nat) : rankSeq (n + 1) = rankSeq n ++ [(n : Int) + 1] := rfl

theorem mem_rankSeq (n : Nat) (x : Int) : x ∈ rankSeq n ↔ 1 ≤ x ∧ x ≤ n := by
  induction n with
  | zero =>
    simp only [rankSeq, List.not_mem_nil, false_iff]
    omega
  | succ n ih =>
    simp only [rankSeq, List.mem_append, List.mem_singleton, ih]
    omega

theorem catRanks_append (a b : CategoryStore) :
    catRanks (a ++ b) = catRanks a ++ catRanks b := by
  simp [catRanks]

theorem le_foldr_max (l : List Int) (x : Int) (h : x ∈ l) : x ≤ l.foldr max 0 := by
  induction l with
  | nil => simp at h
  | cons a t ih =>
    rcases List.mem_cons.mp h with rfl | h1
    · exact le_max_left _ _
    · exact le_trans (ih h1) (le_max_right _ _)

theorem foldr_max_zero_or_mem (l : List Int) :
    l.foldr max 0 = 0 ∨ l.foldr max 0 ∈ l := by
  induction l with
  | nil => simp
  | cons a t ih =>
    rcases max_choice a (t.foldr max 0) with h | h
    · right
      rw [List.foldr_cons, h]
      exact List.mem_cons_self a t
    · rcases ih with h1 | h1
      · left
        rw [List.foldr_cons, h, h1]
      · right
        rw [List.foldr_cons, h]
        exact List.mem_cons_of_mem a h1

theorem maxRank_of_dense (store : CategoryStore) (h : DenseRanks store) :
    maxRankOf store = ((catRanks store).length : Int) := by
  unfold DenseRanks at h
  unfold maxRankOf
  set N := (catRanks store).length with hN
  rcases Nat.eq_zero_or_pos N with h0 | hpos
  · have : catRanks store = [] := List.length_eq_zero.mp (by omega)
    simp [this, h0]
  · have hmemN : (N : Int) ∈ catRanks store := by
      exact h.mem_iff.mpr ((mem_rankSeq N (N : Int)).mpr (by omega))
    have hge : (N : Int) ≤ (catRanks store).foldr max 0 := le_foldr_max _ _ hmemN
    have hle : (catRanks store).foldr max 0 ≤ (N : Int) := by
      rcases foldr_max_zero_or_mem (catRanks store) with h1 | h1
      · omega
      · have := (mem_rankSeq N _).mp (h.mem_iff.mp h1)
        exact this.2
    omega

/-! Lemma section: rank density of the store-producing operations (C1). -/

theorem catRanks_cons (e : String × Category) (t : CategoryStore) :
    catRanks (e :: t) =
      match e.2.rank with
      | none => catRanks t
      | some r => r :: catRanks t := by
  cases h : e.2.rank <;> simp [catRanks, List.filterMap_cons, h]

theorem denseRanks_addNew (store : CategoryStore) (name : String)
    (apps : List AppEntry) (hdense : DenseRanks store)
    (hfresh : name ∉ keysOf store) :
    DenseRanks (addHandlerNewCategory store name apps) := by
  unfold addHandlerNewCategory
  rw [setKey_of_not_mem _ _ _ hfresh]
  unfold DenseRanks
  rw [catRanks_append]
  have hone : catRanks [(name,
      { name := name, rank := some (maxRankOf store + 1),
        apps := apps.mergeSort appRankLe })] = [maxRankOf store + 1] := by
    simp [catRanks]
  rw [hone, maxRank_of_dense store hdense, List.length_append]
  simp only [List.length_singleton]
  rw [rankSeq_succ]
  exact hdense.append (List.Perm.refl _)

theorem idxOfKey_decomp (store : CategoryStore) (k : String) (v : Category)
    (h : getKey store k = some v) :
    ∃ l1 l2, store = l1 ++ (k, v) :: l2 ∧ idxOfKey store k = some l1.length := by
  induction store with
  | nil => simp [getKey] at h
  | cons e t ih =>
    obtain ⟨k1, v1⟩ := e
    by_cases hk : k1 = k
    · subst hk
      simp only [getKey, if_pos rfl] at h
      obtain rfl : v1 = v := by injection h
      exact ⟨[], t, rfl, by simp [idxOfKey]⟩
    · simp only [getKey, if_neg hk] at h
      obtain ⟨l1, l2, hsplit, hidx⟩ := ih h
      refine ⟨(k1, v1) :: l1, l2, by simp [hsplit], ?_⟩
      simp [idxOfKey, hk, hidx]

theorem eraseIdx_append_len (l1 : List β) (x : β) (l2 : List β) :
    (l1 ++ x :: l2).eraseIdx l1.length = l1 ++ l2 := by
  induction l1 with
  | nil => simp
  | cons a t ih => simp [List.eraseIdx_cons_succ, ih]

theorem insertIdx_append_len (l1 : List β) (x : β) (l2 : List β) :
    List.insertIdx l1.length x (l1 ++ l2) = l1 ++ x :: l2 := by
  induction l1 with
  | nil => simp
  | cons a t ih => simp [List.insertIdx_succ_cons, ih]

theorem denseRanks_update (store : CategoryStore) (oldName newName : String)
    (apps : List AppEntry) (c : Category) (r : Int)
    (hnd : (keysOf store).Nodup) (hdense : DenseRanks store)
    (hget : getKey store oldName = some c) (hrank : c.rank = some r)
    (hfresh : newName = oldName ∨ newName ∉ keysOf store) :
    DenseRanks (addHandlerUpdateCategory store oldName newName apps) := by
  obtain ⟨l1, l2, hsplit, hidx⟩ := idxOfKey_decomp store oldName c hget
  simp only [addHandlerUpdateCategory, hget, hrank, hidx]
  rw [hsplit, eraseIdx_append_len, insertIdx_append_len]
  have hkeys : keysOf store = keysOf l1 ++ oldName :: keysOf l2 := by
    rw [hsplit, keysOf_append]
    simp [keysOf]
  have hnd2 : (keysOf (l1 ++ (newName,
      { name := newName, rank := some r, apps := apps.mergeSort appRankLe }) :: l2)).Nodup := by
    have hkeys2 : keysOf (l1 ++ (newName,
        { name := newName, rank := some r,
          apps := apps.mergeSort appRankLe }) :: l2) =
        keysOf l1 ++ newName :: keysOf l2 := by
      rw [keysOf_append]
      simp [keysOf]
    rw [hkeys2]
    rw [hkeys] at hnd
    rcases hfresh with rfl | hfr
    · exact hnd
    · rw [hkeys] at hfr
      simp only [List.nodup_append, List.nodup_cons, List.disjoint_cons_right,
        List.mem_append, List.mem_cons, not_or] at hnd hfr ⊢
      tauto
  rw [dedupEntries_eq_self _ hnd2]
  unfold DenseRanks
  have hcr : catRanks (l1 ++ (newName,
      { name := newName, rank := some r, apps := apps.mergeSort appRankLe }) :: l2) =
      catRanks store := by
    rw [hsplit, catRanks_append, catRanks_append, catRanks_cons, catRanks_cons]
    simp [hrank]
  rw [hcr]
  exact hdense

theorem map_indexOf_self (L : List String) (h : L.Nodup) :
    L.map (fun a => L.indexOf a) = List.range L.length := by
  induction L with
  | nil => simp
  | cons a t ih =>
    simp only [List.nodup_cons] at h
    simp only [List.map_cons, List.indexOf_cons_self, List.length_cons,
      List.range_succ_eq_map]
    refine congrArg (0 :: ·) ?_
    have hmap : t.map (fun x => (a :: t).indexOf x) =
        t.map (fun x => ((t.indexOf x) + 1)) := by
      refine List.map_congr_left (fun x hx => ?_)
      have hne : a ≠ x := fun he => h.1 (he ▸ hx)
      simp [List.indexOf_cons_ne _ hne]
    rw [hmap, ← ih h.2, List.map_map]
    rfl

theorem rankedSortedNames_perm (store : CategoryStore) :
    List.Perm (rankedSortedNames store)
      (keysOf (store.filter (fun e => e.2.rank.isSome))) := by
  unfold rankedSortedNames keysOf
  exact (List.mergeSort_perm _ _).map _

theorem catRanks_map_reassign (L : List String) (sub : CategoryStore) :
    catRanks (sub.map (fun e =>
      match e.2.rank with
      | none => e
      | some _ => (e.1, { e.2 with rank := some ((L.indexOf e.1 : Nat) + 1 : Int) }))) =
    (sub.filter (fun e => e.2.rank.isSome)).map
      (fun e => ((L.indexOf e.1 : Nat) + 1 : Int)) := by
  induction sub with
  | nil => rfl
  | cons e t ih =>
    cases h : e.2.rank with
    | none =>
      simp only [List.map_cons, h, List.filter_cons]
      rw [catRanks_cons]
      simp [h, ih]
    | some r =>
      simp only [List.map_cons, h, List.filter_cons]
      rw [catRanks_cons]
      simp [h, ih]

theorem denseRanks_renumber (store : CategoryStore)
    (hnd : (keysOf store).Nodup) : DenseRanks (renumberRanks store) := by
  have hassign : catRanks (renumberRanks store) =
      (store.filter (fun e => e.2.rank.isSome)).map
        (fun e => (((rankedSortedNames store).indexOf e.1 : Nat) + 1 : Int)) := by
    unfold renumberRanks
    exact catRanks_map_reassign (rankedSortedNames store) store
  have hkP : keysOf (store.filter (fun e => e.2.rank.isSome)) =
      (store.filter (fun e => e.2.rank.isSome)).map Prod.fst := rfl
  have hsubl : (keysOf (store.filter (fun e => e.2.rank.isSome))).Sublist (keysOf store) :=
    (List.filter_sublist store).map Prod.fst
  have hndP : (keysOf (store.filter (fun e => e.2.rank.isSome))).Nodup := hsubl.nodup hnd
  have hLperm := rankedSortedNames_perm store
  have hndL : (rankedSortedNames store).Nodup := hLperm.nodup_iff.mpr hndP
  have hmap2 : (store.filter (fun e => e.2.rank.isSome)).map
      (fun e => (((rankedSortedNames store).indexOf e.1 : Nat) + 1 : Int)) =
      (keysOf (store.filter (fun e => e.2.rank.isSome))).map
        (fun a => (((rankedSortedNames store).indexOf a : Nat) + 1 : Int)) := by
    rw [hkP, List.map_map]
    rfl
  have hperm1 : List.Perm
      ((keysOf (store.filter (fun e => e.2.rank.isSome))).map
        (fun a => (((rankedSortedNames store).indexOf a : Nat) + 1 : Int)))
      ((rankedSortedNames store).map
        (fun a => (((rankedSortedNames store).indexOf a : Nat) + 1 : Int))) :=
    (hLperm.symm).map _
  have hfin : (rankedSortedNames store).map
      (fun a => (((rankedSortedNames store).indexOf a : Nat) + 1 : Int)) =
      rankSeq (rankedSortedNames store).length := by
    have h1 : (rankedSortedNames store).map
        (fun a => (((rankedSortedNames store).indexOf a : Nat) + 1 : Int)) =
        ((rankedSortedNames store).map (fun a => (rankedSortedNames store).indexOf a)).map
          (fun i : Nat => ((i : Nat) + 1 : Int)) := by
      rw [List.map_map]
      rfl
    rw [h1, map_indexOf_self _ hndL]
    have h2 : ∀ n : Nat, (List.range n).map (fun i : Nat => ((i : Nat) + 1 : Int)) =
        rankSeq n := by
      intro n
      induction n with
      | zero => rfl
      | succ m ihm => rw [List.range_succ, List.map_append, ihm, rankSeq_succ]; rfl
    exact h2 _
  unfold DenseRanks
  rw [hassign, hmap2]
  have hlen : ((keysOf (store.filter (fun e => e.2.rank.isSome))).map
      (fun a => (((rankedSortedNames store).indexOf a : Nat) + 1 : Int))).length =
      (rankedSortedNames store).length := by
    rw [List.length_map]
    exact hLperm.length_eq.symm
  rw [hlen, ← hfin]
  exact hperm1

theorem denseRanks_remove (store : CategoryStore) (name : String)
    (hnd : (keysOf store).Nodup) :
    DenseRanks (removeHandlerCategory store name) := by
  unfold removeHandlerCategory
  exact denseRanks_renumber _ (keysOf_delKey_nodup store name hnd)

theorem cleanupCategory_rank (p : String → Bool) (c : Category) :
    (cleanupCategory p c).rank = c.rank := by
  unfold cleanupCategory
  split
  · rfl
  · split
    · rfl
    · rfl

theorem cleanupCategory_name (p : String → Bool) (c : Category) :
    (cleanupCategory p c).name = c.name := by
  unfold cleanupCategory
  split
  · rfl
  · split
    · rfl
    · rfl

theorem catRanks_cleanup (p : String → Bool) (store : CategoryStore) :
    catRanks ((cleanupCategories p store).1) = catRanks store := by
  unfold cleanupCategories
  induction store with
  | nil => rfl
  | cons e t ih =>
    simp only [List.map_cons]
    rw [catRanks_cons, catRanks_cons]
    simp only [cleanupCategory_rank]
    cases e.2.rank with
    | none => exact ih
    | some r => simpa using ih

theorem denseRanks_cleanup (p : String → Bool) (store : CategoryStore)
    (hdense : DenseRanks store) : DenseRanks ((cleanupCategories p store).1) := by
  unfold DenseRanks
  rw [catRanks_cleanup]
  exact hdense

/-! Lemma section: the JSON printer and parser invert each other on the
values the store writes (towards C3). -/

theorem string_mk_data (s : String) : String.mk s.data = s := by
  cases s
  rfl

theorem hexVal_hexDigitChar : ∀ n, n < 16 → hexVal (hexDigitChar n) = some n := by
  decide

theorem hexVal_zero : hexVal '0' = some 0 := by decide

theorem parseStringBody_cons (c : Char) (cs : List Char) :
    parseStringBody (c :: cs) =
      (if c = '"' then some ([], cs)
       else if c = '\\' then
         match cs with
         | [] => none
         | e :: cs2 =>
           if e = '"' then (fun r => ('"' :: r.1, r.2)) <$> parseStringBody cs2
           else if e = '\\' then (fun r => ('\\' :: r.1, r.2)) <$> parseStringBody cs2
           else if e = '/' then (fun r => ('/' :: r.1, r.2)) <$> parseStringBody cs2
           else if e = 'b' then (fun r => ('\x08' :: r.1, r.2)) <$> parseStringBody cs2
           else if e = 'f' then (fun r => ('\x0c' :: r.1, r.2)) <$> parseStringBody cs2
           else if e = 'n' then (fun r => ('\n' :: r.1, r.2)) <$> parseStringBody cs2
           else if e = 'r' then (fun r => ('\r' :: r.1, r.2)) <$> parseStringBody cs2
           else if e = 't' then (fun r => ('\t' :: r.1, r.2)) <$> parseStringBody cs2
           else if e = 'u' then
             match cs2 with
             | h1 :: h2 :: h3 :: h4 :: cs3 =>
               match hexVal h1, hexVal h2, hexVal h3, hexVal h4 with
               | some a, some b, some c3, some d =>
                 (fun r => (Char.ofNat (((a * 16 + b) * 16 + c3) * 16 + d) :: r.1, r.2)) <$>
                   parseStringBody cs3
               | _, _, _, _ => none
             | _ => none
           else none
       else if c.toNat < 32 then none
       else (fun r => (c :: r.1, r.2)) <$> parseStringBody cs) := by
  rw [parseStringBody.eq_def]

theorem parseStringBody_escape (s : List Char) (rest : List Char) :
    parseStringBody (escapeBody s ++ '"' :: rest) = some (s, rest) := by
  induction s with
  | nil => simp [escapeBody, parseStringBody_cons]
  | cons c cs ih =>
    rw [escapeBody, List.append_assoc]
    by_cases h1 : c = '"'
    · subst h1
      simp [escapeChar, parseStringBody_cons, ih]
    · by_cases h2 : c = '\\'
      · subst h2
        simp [escapeChar, parseStringBody_cons, ih]
      · by_cases h3 : c = '\x08'
        · subst h3
          simp [escapeChar, parseStringBody_cons, ih]
        · by_cases h4 : c = '\t'
          · subst h4
            simp [escapeChar, parseStringBody_cons, ih]
          · by_cases h5 : c = '\n'
            · subst h5
              simp [escapeChar, parseStringBody_cons, ih]
            · by_cases h6 : c = '\x0c'
              · subst h6
                simp [escapeChar, parseStringBody_cons, ih]
              · by_cases h7 : c = '\r'
                · subst h7
                  simp [escapeChar, parseStringBody_cons, ih]
                · by_cases h8 : c.toNat < 32
                  · have hdiv : c.toNat / 16 < 16 := by omega
                    have hmod : c.toNat % 16 < 16 := by omega
                    simp only [escapeChar, if_neg h1, if_neg h2, if_neg h3, if_neg h4,
                      if_neg h5, if_neg h6, if_neg h7, if_pos h8, List.cons_append,
                      List.nil_append]
                    simp only [parseStringBody_cons, hexVal_hexDigitChar _ hdiv,
                      hexVal_hexDigitChar _ hmod, hexVal_zero, ih]
                    have harith : c.toNat / 16 * 16 + c.toNat % 16 = c.toNat := by omega
                    simp [harith, Char.ofNat_toNat]
                  · simp only [escapeChar, if_neg h1, if_neg h2, if_neg h3, if_neg h4,
                      if_neg h5, if_neg h6, if_neg h7, if_neg h8, List.cons_append,
                      List.nil_append]
                    simp [parseStringBody_cons, h1, h2, h8, ih]

theorem digitVal_digitChar : ∀ n, n < 10 → digitVal (digitChar n) = n := by
  decide

theorem digitChar_isDigit : ∀ n, n < 10 → isDigitCh (digitChar n) = true := by
  decide

theorem digitChar_ne_zero : ∀ n, n < 10 → 0 < n → ¬(digitChar n = '0') := by
  decide

theorem natDigitsAux_digits (fuel : Nat) :
    ∀ n, ∀ c ∈ natDigitsAux fuel n, isDigitCh c = true := by
  induction fuel with
  | zero => intro n c hc; simp [natDigitsAux] at hc
  | succ fuel ih =>
    intro n c hc
    by_cases h : n < 10
    · simp only [natDigitsAux, if_pos h, List.mem_singleton] at hc
      subst hc
      exact digitChar_isDigit n h
    · simp only [natDigitsAux, if_neg h, List.mem_append, List.mem_singleton] at hc
      rcases hc with hc | hc
      · exact ih _ c hc
      · subst hc
        exact digitChar_isDigit _ (Nat.mod_lt n (by omega))

theorem digitsToNat_append_one (ds : List Char) (d : Char) :
    digitsToNat (ds ++ [d]) = digitsToNat ds * 10 + digitVal d := by
  simp [digitsToNat, List.foldl_append]

theorem natDigitsAux_correct (fuel : Nat) :
    ∀ n, n < fuel → digitsToNat (natDigitsAux fuel n) = n := by
  induction fuel with
  | zero => intro n h; omega
  | succ fuel ih =>
    intro n h
    by_cases h10 : n < 10
    · simp [natDigitsAux, if_pos h10, digitsToNat, digitVal_digitChar n h10]
    · have hdiv : n / 10 < fuel := by omega
      simp only [natDigitsAux, if_neg h10]
      rw [digitsToNat_append_one, ih _ hdiv, digitVal_digitChar _ (Nat.mod_lt n (by omega))]
      omega

theorem natDigits_correct (n : Nat) : digitsToNat (natDigits n) = n :=
  natDigitsAux_correct (n + 1) n (Nat.lt_succ_self n)

theorem natDigitsAux_decomp (fuel : Nat) :
    ∀ n, n < fuel → 0 < n →
      ∃ d ds, natDigitsAux fuel n = d :: ds ∧ ¬(d = '0') := by
  induction fuel with
  | zero => intro n h; omega
  | succ fuel ih =>
    intro n h hpos
    by_cases h10 : n < 10
    · exact ⟨digitChar n, [], by simp [natDigitsAux, if_pos h10],
        digitChar_ne_zero n h10 hpos⟩
    · have hdiv : n / 10 < fuel := by omega
      have hdivpos : 0 < n / 10 := by omega
      obtain ⟨d, ds, heq, hne⟩ := ih _ hdiv hdivpos
      exact ⟨d, ds ++ [digitChar (n % 10)], by simp [natDigitsAux, if_neg h10, heq], hne⟩

theorem natDigits_zero : natDigits 0 = ['0'] := rfl

theorem natDigits_decomp (n : Nat) :
    ∃ d ds, natDigits n = d :: ds ∧ isDigitCh d = true ∧ (d = '0' → n = 0) ∧
      (∀ c ∈ ds, isDigitCh c = true) := by
  rcases Nat.eq_zero_or_pos n with rfl | hpos
  · exact ⟨'0', [], natDigits_zero, by decide, fun _ => rfl, by simp⟩
  · obtain ⟨d, ds, heq, hne⟩ := natDigitsAux_decomp (n + 1) n (Nat.lt_succ_self n) hpos
    have heq' : natDigits n = d :: ds := heq
    refine ⟨d, ds, heq', ?_, fun h => absurd h hne, ?_⟩
    · exact natDigitsAux_digits (n + 1) n d (by rw [heq]; exact List.mem_cons_self d ds)
    · intro c hc
      exact natDigitsAux_digits (n + 1) n c (by rw [heq]; exact List.mem_cons_of_mem d hc)

theorem takeDigits_split (ds rest : List Char)
    (hds : ∀ c ∈ ds, isDigitCh c = true)
    (hrest : ∀ c, rest.head? = some c → isDigitCh c = false) :
    takeDigits (ds ++ rest) = (ds, rest) := by
  induction ds with
  | nil =>
    cases rest with
    | nil => rfl
    | cons c t =>
      have := hrest c rfl
      simp [takeDigits, this]
  | cons c t ih =>
    have hc : isDigitCh c = true := hds c (List.mem_cons_self c t)
    have ht : ∀ x ∈ t, isDigitCh x = true := fun x hx => hds x (List.mem_cons_of_mem c hx)
    simp [takeDigits, hc, ih ht]

theorem parseNumAfterSign_natDigits (n : Nat) (rest : List Char)
    (hrest : ∀ c, rest.head? = some c → isDigitCh c = false) :
    parseNumAfterSign (natDigits n ++ rest) = some (n, rest) := by
  rcases Nat.eq_zero_or_pos n with rfl | hpos
  · rw [natDigits_zero]
    simp [parseNumAfterSign]
  · obtain ⟨d, ds, heq, hdig, hzero, hds⟩ := natDigits_decomp n
    have hd0 : ¬(d = '0') := fun h => by
      have := hzero h
      omega
    rw [heq, List.cons_append, parseNumAfterSign]
    rw [if_neg hd0, if_pos hdig, takeDigits_split ds rest hds hrest]
    have hval : digitsToNat (d :: ds) = n := by
      have h2 := natDigits_correct n
      rw [heq] at h2
      exact h2
    simp [hval]

theorem isDigitCh_ne_minus (d : Char) (h : isDigitCh d = true) : ¬(d = '-') := by
  intro hd
  subst hd
  simp [isDigitCh] at h

theorem parseNumber_intChars (i : Int) (rest : List Char)
    (hrest : ∀ c, rest.head? = some c → isDigitCh c = false) :
    parseNumber (intChars i ++ rest) = some (Json.num i, rest) := by
  by_cases hneg : i < 0
  · simp only [intChars, if_pos hneg, List.cons_append, parseNumber, if_true]
    rw [parseNumAfterSign_natDigits i.natAbs rest hrest]
    have hcast : -(i.natAbs : Int) = i := by omega
    show some (Json.num (-(i.natAbs : Int)), rest) = some (Json.num i, rest)
    rw [hcast]
  · simp only [intChars, if_neg hneg]
    obtain ⟨d, ds, heq, hdig, hzero, hds⟩ := natDigits_decomp i.natAbs
    rw [heq, List.cons_append, parseNumber]
    rw [if_neg (isDigitCh_ne_minus d hdig), ← List.cons_append, ← heq,
      parseNumAfterSign_natDigits i.natAbs rest hrest]
    have hcast : ((i.natAbs : Nat) : Int) = i := by omega
    simp [hcast]

theorem printJson_null : printJson Json.null = ['n', 'u', 'l', 'l'] := by
  simp [printJson]

theorem printJson_num (i : Int) : printJson (Json.num i) = intChars i := by
  simp [printJson]

theorem printJson_str (s : String) :
    printJson (Json.str s) = '"' :: (escapeBody s.data ++ ['"']) := by
  simp [printJson]

theorem printJson_arr (es : List Json) :
    printJson (Json.arr es) = '[' :: (joinComma (es.map printJson) ++ [']']) := by
  simp [printJson, List.attach_map_val]

theorem printJson_obj (fs : List (String × Json)) :
    printJson (Json.obj fs) =
      '\x7b' :: (joinComma (fs.map
        (fun f => '"' :: (escapeBody f.1.data ++ '"' :: ':' :: printJson f.2))) ++
        ['\x7d']) := by
  simp [printJson, List.map_attach, List.pmap_eq_map]

theorem skipWs_nws (c : Char) (cs : List Char) (h : isJsonWs c = false) :
    skipWs (c :: cs) = c :: cs := by
  simp [skipWs, h]

theorem parseValue_succ (fuel : Nat) (cs0 : List Char) :
    parseValue (fuel + 1) cs0 =
      (match skipWs cs0 with
       | [] => none
       | c :: cs =>
         if c = 'n' then (fun r => (Json.null, r)) <$> matchLit ['u', 'l', 'l'] cs
         else if c = 't' then (fun r => (Json.bool true, r)) <$> matchLit ['r', 'u', 'e'] cs
         else if c = 'f' then
           (fun r => (Json.bool false, r)) <$> matchLit ['a', 'l', 's', 'e'] cs
         else if c = '"' then
           (fun r => (Json.str (String.mk r.1), r.2)) <$> parseStringBody cs
         else if c = '[' then
           match skipWs cs with
           | ']' :: rest => some (Json.arr [], rest)
           | cs2 => (fun r => (Json.arr r.1, r.2)) <$> parseElemSeq fuel cs2
         else if c = '\x7b' then
           match skipWs cs with
           | '\x7d' :: rest => some (Json.obj [], rest)
           | cs2 => (fun r => (Json.obj (collapseFields r.1), r.2)) <$> parseFieldSeq fuel cs2
         else if c = '-' || isDigitCh c then parseNumber (c :: cs)
         else none) := by
  rw [parseValue.eq_def]

theorem parseElemSeq_succ (fuel : Nat) (cs : List Char) :
    parseElemSeq (fuel + 1) cs =
      (match parseValue fuel cs with
       | none => none
       | some (v, rest) =>
         match skipWs rest with
         | ',' :: rest2 => (fun r => (v :: r.1, r.2)) <$> parseElemSeq fuel rest2
         | ']' :: rest2 => some ([v], rest2)
         | _ => none) := by
  rw [parseElemSeq.eq_def]

theorem parseFieldSeq_succ (fuel : Nat) (cs : List Char) :
    parseFieldSeq (fuel + 1) cs =
      (match skipWs cs with
       | '"' :: cs2 =>
         match parseStringBody cs2 with
         | none => none
         | some (key, rest) =>
           match skipWs rest with
           | ':' :: rest2 =>
             match parseValue fuel rest2 with
             | none => none
             | some (v, rest3) =>
               match skipWs rest3 with
               | ',' :: rest4 =>
                 (fun r => ((String.mk key, v) :: r.1, r.2)) <$> parseFieldSeq fuel rest4
               | '\x7d' :: rest4 => some ([(String.mk key, v)], rest4)
               | _ => none
           | _ => none
       | _ => none) := by
  rw [parseFieldSeq.eq_def]

theorem parseValue_print_null (fuel : Nat) (rest : List Char) :
    parseValue (fuel + 1) (printJson Json.null ++ rest) = some (Json.null, rest) := by
  rw [printJson_null, parseValue_succ]
  simp only [List.cons_append, List.nil_append]
  rw [skipWs_nws _ _ (by decide)]
  simp [matchLit]

theorem parseValue_print_str (fuel : Nat) (s : String) (rest : List Char) :
    parseValue (fuel + 1) (printJson (Json.str s) ++ rest) = some (Json.str s, rest) := by
  rw [printJson_str, parseValue_succ]
  simp only [List.cons_append, List.append_assoc, List.singleton_append]
  rw [skipWs_nws _ _ (by decide)]
  simp [parseStringBody_escape, string_mk_data]

theorem parseValue_dispatch_num (fuel : Nat) (c : Char) (cs : List Char)
    (hws : isJsonWs c = false) (hn : ¬(c = 'n')) (ht : ¬(c = 't')) (hf : ¬(c = 'f'))
    (hq : ¬(c = '"')) (hb : ¬(c = '[')) (ho : ¬(c = '\x7b'))
    (hd : (c = '-' || isDigitCh c) = true) :
    parseValue (fuel + 1) (c :: cs) = parseNumber (c :: cs) := by
  rw [parseValue_succ, skipWs_nws _ _ hws]
  simp [hn, ht, hf, hq, hb, ho, hd]

theorem digitChar_head_facts : ∀ m, m < 10 →
    (isJsonWs (digitChar m) = false ∧ ¬(digitChar m = 'n') ∧ ¬(digitChar m = 't') ∧
     ¬(digitChar m = 'f') ∧ ¬(digitChar m = '"') ∧ ¬(digitChar m = '[') ∧
     ¬(digitChar m = '\x7b')) := by
  decide

theorem natDigitsAux_head (fuel : Nat) :
    ∀ n, n < fuel → ∃ m ds, m < 10 ∧ natDigitsAux fuel n = digitChar m :: ds := by
  induction fuel with
  | zero => intro n h; omega
  | succ fuel ih =>
    intro n h
    by_cases h10 : n < 10
    · exact ⟨n, [], h10, by simp [natDigitsAux, if_pos h10]⟩
    · obtain ⟨m, ds, hm, heq⟩ := ih (n / 10) (by omega)
      exact ⟨m, ds ++ [digitChar (n % 10)], hm, by simp [natDigitsAux, if_neg h10, heq]⟩

theorem parseValue_print_num (fuel : Nat) (i : Int) (rest : List Char)
    (hrest : ∀ c, rest.head? = some c → isDigitCh c = false) :
    parseValue (fuel + 1) (printJson (Json.num i) ++ rest) = some (Json.num i, rest) := by
  rw [printJson_num]
  have hnum := parseNumber_intChars i rest hrest
  by_cases hneg : i < 0
  · rw [intChars, if_pos hneg] at hnum ⊢
    rw [List.cons_append] at hnum ⊢
    rw [parseValue_dispatch_num fuel '-' _ (by decide) (by decide) (by decide) (by decide)
      (by decide) (by decide) (by decide) (by decide)]
    exact hnum
  · rw [intChars, if_neg hneg] at hnum ⊢
    obtain ⟨m, ds, hm, heq⟩ :=
      natDigitsAux_head (i.natAbs + 1) i.natAbs (Nat.lt_succ_self _)
    have heq' : natDigits i.natAbs = digitChar m :: ds := heq
    rw [heq'] at hnum ⊢
    rw [List.cons_append] at hnum ⊢
    obtain ⟨f1, f2, f3, f4, f5, f6, f7⟩ := digitChar_head_facts m hm
    rw [parseValue_dispatch_num fuel (digitChar m) _ f1 f2 f3 f4 f5 f6 f7
      (by rw [digitChar_isDigit m hm]; simp)]
    exact hnum

theorem printedFields_single (k : String) (v : Json) :
    printedFields [(k, v)] = '"' :: (escapeBody k.data ++ '"' :: ':' :: printJson v) := by
  simp [printedFields, joinComma]

theorem printedFields_cons (k : String) (v : Json) (f2 : String × Json)
    (fs : List (String × Json)) :
    printedFields ((k, v) :: f2 :: fs) =
      '"' :: (escapeBody k.data ++ '"' :: ':' ::
        (printJson v ++ ',' :: printedFields (f2 :: fs))) := by
  simp [printedFields, joinComma, List.map_cons]

theorem printedElems_single (v : Json) : printedElems [v] = printJson v := by
  simp [printedElems, joinComma]

theorem printedElems_cons (v w : Json) (es : List Json) :
    printedElems (v :: w :: es) = printJson v ++ ',' :: printedElems (w :: es) := by
  simp [printedElems, joinComma, List.map_cons]

theorem parseFieldSeq_step_generic (g : Nat) (k : String) (v : Json) (T : List Char)
    (hv : parseValue g (printJson v ++ ',' :: T) = some (v, ',' :: T)) :
    parseFieldSeq (g + 1)
      ('"' :: (escapeBody k.data ++ '"' :: ':' :: (printJson v ++ ',' :: T))) =
      Option.map (fun r => ((k, v) :: r.1, r.2)) (parseFieldSeq g T) := by
  rw [parseFieldSeq_succ, skipWs_nws _ _ (by decide)]
  simp [parseStringBody_escape, skipWs_nws, isJsonWs, hv, string_mk_data]

theorem parseFieldSeq_last_generic (g : Nat) (k : String) (v : Json) (rest : List Char)
    (hv : parseValue g (printJson v ++ '\x7d' :: rest) = some (v, '\x7d' :: rest)) :
    parseFieldSeq (g + 1)
      ('"' :: (escapeBody k.data ++ '"' :: ':' :: (printJson v ++ '\x7d' :: rest))) =
      some ([(k, v)], rest) := by
  rw [parseFieldSeq_succ, skipWs_nws _ _ (by decide)]
  simp [parseStringBody_escape, skipWs_nws, isJsonWs, hv, string_mk_data]

theorem parseElemSeq_step_generic (g : Nat) (v : Json) (T : List Char)
    (hv : parseValue g (printJson v ++ ',' :: T) = some (v, ',' :: T)) :
    parseElemSeq (g + 1) (printJson v ++ ',' :: T) =
      Option.map (fun r => (v :: r.1, r.2)) (parseElemSeq g T) := by
  rw [parseElemSeq_succ, hv]
  simp [skipWs_nws, isJsonWs]

theorem parseElemSeq_last_generic (g : Nat) (v : Json) (rest : List Char)
    (hv : parseValue g (printJson v ++ ']' :: rest) = some (v, ']' :: rest)) :
    parseElemSeq (g + 1) (printJson v ++ ']' :: rest) = some ([v], rest) := by
  rw [parseElemSeq_succ, hv]
  simp [skipWs_nws, isJsonWs]

theorem digitChar_ne_closers : ∀ m, m < 10 →
    ¬(digitChar m = ']') ∧ ¬(digitChar m = '\x7d') := by
  decide

theorem printJson_head_facts (v : Json) :
    ∃ c T, printJson v = c :: T ∧ isJsonWs c = false ∧ ¬(c = ']') ∧ ¬(c = '\x7d') := by
  cases v with
  | null =>
    exact ⟨'n', ['u', 'l', 'l'], printJson_null, by decide, by decide, by decide⟩
  | bool b =>
    cases b with
    | true =>
      exact ⟨'t', ['r', 'u', 'e'], by simp [printJson], by decide, by decide, by decide⟩
    | false =>
      exact ⟨'f', ['a', 'l', 's', 'e'], by simp [printJson], by decide, by decide,
        by decide⟩
  | num i =>
    rw [printJson_num]
    by_cases hneg : i < 0
    · exact ⟨'-', natDigits i.natAbs, by rw [intChars, if_pos hneg], by decide,
        by decide, by decide⟩
    · obtain ⟨m, ds, hm, heq⟩ :=
        natDigitsAux_head (i.natAbs + 1) i.natAbs (Nat.lt_succ_self _)
      refine ⟨digitChar m, ds, ?_, (digitChar_head_facts m hm).1,
        (digitChar_ne_closers m hm).1, (digitChar_ne_closers m hm).2⟩
      rw [intChars, if_neg hneg]
      exact heq
  | str s => exact ⟨'"', _, printJson_str s, by decide, by decide, by decide⟩
  | arr es => exact ⟨'[', _, printJson_arr es, by decide, by decide, by decide⟩
  | obj fs => exact ⟨'\x7b', _, printJson_obj fs, by decide, by decide, by decide⟩


theorem printJson_obj_fields (fs : List (String × Json)) :
    printJson (Json.obj fs) = '\x7b' :: (printedFields fs ++ ['\x7d']) := by
  rw [printJson_obj]
  rfl

theorem printJson_arr_elems (es : List Json) :
    printJson (Json.arr es) = '[' :: (printedElems es ++ [']']) := by
  rw [printJson_arr]
  rfl

theorem parseValue_print_obj (f : Nat) (k0 : String) (v0 : Json)
    (fs' : List (String × Json)) (rest : List Char)
    (hseq : parseFieldSeq f (printedFields ((k0, v0) :: fs') ++ '\x7d' :: rest) =
      some ((k0, v0) :: fs', rest)) :
    parseValue (f + 1) (printJson (Json.obj ((k0, v0) :: fs')) ++ rest) =
      some (Json.obj (collapseFields ((k0, v0) :: fs')), rest) := by
  obtain ⟨T, hT⟩ : ∃ T, printedFields ((k0, v0) :: fs') = '"' :: T := by
    cases fs' with
    | nil => exact ⟨_, printedFields_single k0 v0⟩
    | cons f2 t => exact ⟨_, printedFields_cons k0 v0 f2 t⟩
  rw [hT, List.cons_append] at hseq
  rw [printJson_obj_fields, hT]
  simp only [List.cons_append, List.append_assoc, List.singleton_append, List.nil_append]
  rw [parseValue_succ, skipWs_nws _ _ (by decide)]
  simp [skipWs_nws, isJsonWs, hseq]

theorem parseValue_print_arr_nil (f : Nat) (rest : List Char) :
    parseValue (f + 1) (printJson (Json.arr []) ++ rest) = some (Json.arr [], rest) := by
  rw [printJson_arr_elems]
  simp only [printedElems, List.map_nil, joinComma, List.nil_append, List.cons_append,
    List.singleton_append]
  rw [parseValue_succ, skipWs_nws _ _ (by decide)]
  simp [skipWs_nws, isJsonWs]

theorem printedElems_head (e0 : Json) (es' : List Json) :
    ∃ c T, printedElems (e0 :: es') = c :: T ∧ isJsonWs c = false ∧ ¬(c = ']') := by
  obtain ⟨c, T0, hT0, hws, hbr, _⟩ := printJson_head_facts e0
  cases es' with
  | nil => exact ⟨c, T0, by rw [printedElems_single, hT0], hws, hbr⟩
  | cons w t =>
    exact ⟨c, T0 ++ ',' :: printedElems (w :: t),
      by rw [printedElems_cons, hT0, List.cons_append], hws, hbr⟩

theorem parseValue_print_arr (f : Nat) (e0 : Json) (es' : List Json) (rest : List Char)
    (hseq : parseElemSeq f (printedElems (e0 :: es') ++ ']' :: rest) =
      some (e0 :: es', rest)) :
    parseValue (f + 1) (printJson (Json.arr (e0 :: es')) ++ rest) =
      some (Json.arr (e0 :: es'), rest) := by
  obtain ⟨c, T, hT, hws, hbr⟩ := printedElems_head e0 es'
  rw [hT, List.cons_append] at hseq
  rw [printJson_arr_elems, hT]
  simp only [List.cons_append, List.append_assoc, List.singleton_append, List.nil_append]
  rw [parseValue_succ, skipWs_nws _ _ (by decide)]
  simp [skipWs_nws, hws, hbr, hseq]

theorem head_not_digit_brace :
    ∀ c : Char, ('\x7d' :: ([] : List Char)).head? = some c → isDigitCh c = false := by
  intro c hc
  simp at hc
  subst hc
  decide

theorem head_not_digit_of_cons (x : Char) (t : List Char) (hx : isDigitCh x = false) :
    ∀ c : Char, (x :: t).head? = some c → isDigitCh c = false := by
  intro c hc
  simp at hc
  subst hc
  exact hx

theorem parseValue_print_app (fuel : Nat) (a : AppEntry) (rest : List Char) :
    parseValue (fuel + 5) (printJson (appToJson a) ++ rest) = some (appToJson a, rest) := by
  have hseq3 : parseFieldSeq (fuel + 2)
      (printedFields [("rank", Json.num a.rank)] ++ '\x7d' :: rest) =
      some ([("rank", Json.num a.rank)], rest) := by
    rw [printedFields_single]
    simp only [List.cons_append, List.append_assoc]
    exact parseFieldSeq_last_generic (fuel + 1) "rank" (Json.num a.rank) rest
      (parseValue_print_num fuel a.rank ('\x7d' :: rest)
        (head_not_digit_of_cons '\x7d' rest (by decide)))
  have hseq2 : parseFieldSeq (fuel + 3)
      (printedFields [("name", Json.str a.name), ("rank", Json.num a.rank)] ++
        '\x7d' :: rest) =
      some ([("name", Json.str a.name), ("rank", Json.num a.rank)], rest) := by
    rw [printedFields_cons]
    simp only [List.cons_append, List.append_assoc]
    rw [parseFieldSeq_step_generic (fuel + 2) "name" (Json.str a.name)
      (printedFields [("rank", Json.num a.rank)] ++ '\x7d' :: rest)
      (parseValue_print_str (fuel + 1) a.name _), hseq3]
    rfl
  have hseq1 : parseFieldSeq (fuel + 4)
      (printedFields [("id", Json.str a.id), ("name", Json.str a.name),
        ("rank", Json.num a.rank)] ++ '\x7d' :: rest) =
      some ([("id", Json.str a.id), ("name", Json.str a.name),
        ("rank", Json.num a.rank)], rest) := by
    rw [printedFields_cons]
    simp only [List.cons_append, List.append_assoc]
    rw [parseFieldSeq_step_generic (fuel + 3) "id" (Json.str a.id)
      (printedFields [("name", Json.str a.name), ("rank", Json.num a.rank)] ++
        '\x7d' :: rest)
      (parseValue_print_str (fuel + 2) a.id _), hseq2]
    rfl
  have hobj := parseValue_print_obj (fuel + 4) "id" (Json.str a.id)
    [("name", Json.str a.name), ("rank", Json.num a.rank)] rest hseq1
  have hcoll : collapseFields [("id", Json.str a.id), ("name", Json.str a.name),
      ("rank", Json.num a.rank)] =
      [("id", Json.str a.id), ("name", Json.str a.name), ("rank", Json.num a.rank)] := rfl
  rw [hcoll] at hobj
  exact hobj

theorem parseElemSeq_apps (g : Nat) (apps : List AppEntry) :
    ∀ rest : List Char, apps ≠ [] →
    parseElemSeq (g + apps.length + 5) (printedElems (apps.map appToJson) ++ ']' :: rest) =
      some (apps.map appToJson, rest) := by
  induction apps with
  | nil => intro rest h; exact absurd rfl h
  | cons a t ih =>
    intro rest _
    cases t with
    | nil =>
      simp only [List.map_cons, List.map_nil, printedElems_single, List.length_cons,
        List.length_nil]
      exact parseElemSeq_last_generic (g + 5) (appToJson a) rest
        (parseValue_print_app g a (']' :: rest))
    | cons b t2 =>
      simp only [List.map_cons, List.length_cons]
      rw [printedElems_cons]
      simp only [List.append_assoc, List.cons_append]
      rw [show g + (t2.length + 1 + 1) + 5 = (g + (t2.length + 1) + 5) + 1 by omega]
      rw [parseElemSeq_step_generic (g + (t2.length + 1) + 5) (appToJson a)
        (printedElems (appToJson b :: t2.map appToJson) ++ ']' :: rest)
        (parseValue_print_app (g + t2.length + 1) a _)]
      have ih2 := ih rest (by simp)
      simp only [List.map_cons, List.length_cons] at ih2
      rw [ih2]
      rfl

theorem parseValue_print_category (fuel : Nat) (c : Category) (rest : List Char) :
    parseValue (fuel + c.apps.length + 10) (printJson (categoryToJson c) ++ rest) =
      some (categoryToJson c, rest) := by
  have hvapps : parseValue (fuel + c.apps.length + 6)
      (printJson (Json.arr (c.apps.map appToJson)) ++ '\x7d' :: rest) =
      some (Json.arr (c.apps.map appToJson), '\x7d' :: rest) := by
    cases happs : c.apps with
    | nil =>
      simp only [List.map_nil, List.length_nil]
      exact parseValue_print_arr_nil (fuel + 0 + 5) ('\x7d' :: rest)
    | cons a t =>
      simp only [List.map_cons, List.length_cons]
      have hseq := parseElemSeq_apps fuel (a :: t) ('\x7d' :: rest) (by simp)
      simp only [List.map_cons, List.length_cons] at hseq
      exact parseValue_print_arr (fuel + (t.length + 1) + 5) (appToJson a)
        (t.map appToJson) ('\x7d' :: rest) hseq
  have hseqApps : parseFieldSeq (fuel + c.apps.length + 7)
      (printedFields [("apps", Json.arr (c.apps.map appToJson))] ++ '\x7d' :: rest) =
      some ([("apps", Json.arr (c.apps.map appToJson))], rest) := by
    rw [printedFields_single]
    simp only [List.cons_append, List.append_assoc]
    exact parseFieldSeq_last_generic (fuel + c.apps.length + 6) "apps"
      (Json.arr (c.apps.map appToJson)) rest hvapps
  have hvrank : parseValue (fuel + c.apps.length + 7)
      (printJson (rankToJson c.rank) ++ ',' ::
        (printedFields [("apps", Json.arr (c.apps.map appToJson))] ++ '\x7d' :: rest)) =
      some (rankToJson c.rank, ',' ::
        (printedFields [("apps", Json.arr (c.apps.map appToJson))] ++ '\x7d' :: rest)) := by
    cases c.rank with
    | none => exact parseValue_print_null (fuel + c.apps.length + 6) _
    | some r =>
      exact parseValue_print_num (fuel + c.apps.length + 6) r _
        (head_not_digit_of_cons ',' _ (by decide))
  have hseqRank : parseFieldSeq (fuel + c.apps.length + 8)
      (printedFields [("rank", rankToJson c.rank),
        ("apps", Json.arr (c.apps.map appToJson))] ++ '\x7d' :: rest) =
      some ([("rank", rankToJson c.rank),
        ("apps", Json.arr (c.apps.map appToJson))], rest) := by
    rw [printedFields_cons]
    simp only [List.cons_append, List.append_assoc]
    rw [parseFieldSeq_step_generic (fuel + c.apps.length + 7) "rank" (rankToJson c.rank)
      (printedFields [("apps", Json.arr (c.apps.map appToJson))] ++ '\x7d' :: rest)
      hvrank, hseqApps]
    rfl
  have hseqName : parseFieldSeq (fuel + c.apps.length + 9)
      (printedFields [("name", Json.str c.name), ("rank", rankToJson c.rank),
        ("apps", Json.arr (c.apps.map appToJson))] ++ '\x7d' :: rest) =
      some ([("name", Json.str c.name), ("rank", rankToJson c.rank),
        ("apps", Json.arr (c.apps.map appToJson))], rest) := by
    rw [printedFields_cons]
    simp only [List.cons_append, List.append_assoc]
    rw [parseFieldSeq_step_generic (fuel + c.apps.length + 8) "name" (Json.str c.name)
      (printedFields [("rank", rankToJson c.rank),
        ("apps", Json.arr (c.apps.map appToJson))] ++ '\x7d' :: rest)
      (parseValue_print_str (fuel + c.apps.length + 7) c.name _), hseqRank]
    rfl
  have hobj := parseValue_print_obj (fuel + c.apps.length + 9) "name" (Json.str c.name)
    [("rank", rankToJson c.rank), ("apps", Json.arr (c.apps.map appToJson))] rest hseqName
  have hcoll : collapseFields [("name", Json.str c.name), ("rank", rankToJson c.rank),
      ("apps", Json.arr (c.apps.map appToJson))] =
      [("name", Json.str c.name), ("rank", rankToJson c.rank),
        ("apps", Json.arr (c.apps.map appToJson))] := rfl
  rw [hcoll] at hobj
  exact hobj

theorem printJson_length_pos (j : Json) : 1 ≤ (printJson j).length := by
  obtain ⟨c, T, hT, -, -, -⟩ := printJson_head_facts j
  rw [hT]
  simp

theorem printedElems_length_ge (es : List Json) :
    es.length ≤ (printedElems es).length := by
  induction es with
  | nil => simp [printedElems, joinComma]
  | cons e t ih =>
    cases t with
    | nil =>
      rw [printedElems_single]
      simpa using printJson_length_pos e
    | cons w t2 =>
      rw [printedElems_cons]
      have h1 := printJson_length_pos e
      simp only [List.length_append, List.length_cons] at ih ⊢
      omega

theorem printJson_category_length (c : Category) :
    c.apps.length + 9 ≤ (printJson (categoryToJson c)).length := by
  rw [show categoryToJson c = Json.obj [("name", Json.str c.name),
    ("rank", rankToJson c.rank), ("apps", Json.arr (c.apps.map appToJson))] from rfl]
  rw [printJson_obj_fields, printedFields_cons, printedFields_cons, printedFields_single]
  rw [printJson_arr_elems]
  have harr : c.apps.length ≤ (printedElems (c.apps.map appToJson)).length := by
    have h1 := printedElems_length_ge (c.apps.map appToJson)
    simpa using h1
  simp only [List.length_cons, List.length_append, List.length_singleton]
  omega

theorem jsonParse_stringify_category (c : Category) :
    jsonParse (stringifyJson (categoryToJson c)) = some (categoryToJson c) := by
  unfold jsonParse stringifyJson
  rw [show (String.mk (printJson (categoryToJson c))).data =
    printJson (categoryToJson c) from rfl]
  rw [show (String.mk (printJson (categoryToJson c))).length =
    (printJson (categoryToJson c)).length from rfl]
  have hlen := printJson_category_length c
  have harith : (printJson (categoryToJson c)).length + 1 =
      ((printJson (categoryToJson c)).length - (c.apps.length + 9)) +
        c.apps.length + 10 := by omega
  rw [harith]
  have hparse := parseValue_print_category
    ((printJson (categoryToJson c)).length - (c.apps.length + 9)) c []
  rw [List.append_nil] at hparse
  rw [hparse]
  simp [skipWs]

theorem appOfJson_toJson (a : AppEntry) : appOfJson (appToJson a) = a := rfl

theorem categoryOfJson_toJson (c : Category) : categoryOfJson (categoryToJson c) = c := by
  obtain ⟨nm, rk, apps⟩ := c
  have happs : (apps.map appToJson).map appOfJson = apps := by
    rw [List.map_map]
    have hco : appOfJson ∘ appToJson = id := funext (fun a => appOfJson_toJson a)
    rw [hco, List.map_id]
  cases rk with
  | none =>
    show Category.mk nm none ((apps.map appToJson).map appOfJson) =
      Category.mk nm none apps
    rw [happs]
  | some r =>
    show Category.mk nm (some r) ((apps.map appToJson).map appOfJson) =
      Category.mk nm (some r) apps
    rw [happs]

theorem newline_not_in_escapeChar (c : Char) : '\n' ∉ escapeChar c := by
  unfold escapeChar
  by_cases h1 : c = '"'
  · simp [h1]
  · by_cases h2 : c = '\\'
    · simp [h1, h2]
    · by_cases h3 : c = '\x08'
      · simp [h1, h2, h3]
      · by_cases h4 : c = '\t'
        · simp [h1, h2, h3, h4]
        · by_cases h5 : c = '\n'
          · simp [h1, h2, h3, h4, h5]
          · by_cases h6 : c = '\x0c'
            · simp [h1, h2, h3, h4, h5, h6]
            · by_cases h7 : c = '\x0d'
              · simp [h1, h2, h3, h4, h5, h6, h7]
              · by_cases h8 : c.toNat < 32
                · simp only [h1, h2, h3, h4, h5, h6, h7, h8, if_neg, if_pos,
                    if_false, if_true]
                  have hh1 : ¬('\n' = hexDigitChar (c.toNat / 16)) := by
                    have : c.toNat / 16 < 16 := by omega
                    revert this
                    generalize c.toNat / 16 = m
                    intro hm
                    revert hm
                    revert m
                    decide
                  have hh2 : ¬('\n' = hexDigitChar (c.toNat % 16)) := by
                    have : c.toNat % 16 < 16 := by omega
                    revert this
                    generalize c.toNat % 16 = m
                    intro hm
                    revert hm
                    revert m
                    decide
                  simp [hh1, hh2]
                · simp only [h1, h2, h3, h4, h5, h6, h7, h8, if_neg, if_false]
                  intro hmem
                  simp at hmem
                  subst hmem
                  exact h8 (by decide)

theorem newline_not_in_escapeBody (s : List Char) : '\n' ∉ escapeBody s := by
  induction s with
  | nil => simp [escapeBody]
  | cons c cs ih =>
    rw [escapeBody]
    intro hmem
    rcases List.mem_append.mp hmem with h | h
    · exact newline_not_in_escapeChar c h
    · exact ih h

theorem newline_not_in_intChars (i : Int) : '\n' ∉ intChars i := by
  have hdig : ∀ c ∈ natDigits i.natAbs, isDigitCh c = true :=
    natDigitsAux_digits (i.natAbs + 1) i.natAbs
  unfold intChars
  by_cases h : i < 0
  · simp only [if_pos h]
    intro hmem
    rcases List.mem_cons.mp hmem with h1 | h1
    · exact absurd h1 (by decide)
    · have := hdig _ h1
      simp [isDigitCh] at this
  · simp only [if_neg h]
    intro hmem
    have := hdig _ hmem
    simp [isDigitCh] at this

theorem newline_not_in_printApp (a : AppEntry) : '\n' ∉ printJson (appToJson a) := by
  rw [show appToJson a = Json.obj [("id", Json.str a.id), ("name", Json.str a.name),
    ("rank", Json.num a.rank)] from rfl]
  rw [printJson_obj_fields, printedFields_cons, printedFields_cons, printedFields_single]
  rw [printJson_str, printJson_str, printJson_num]
  intro hmem
  simp [newline_not_in_escapeBody, newline_not_in_intChars] at hmem

theorem newline_not_in_printedElems_apps (apps : List AppEntry) :
    '\n' ∉ printedElems (apps.map appToJson) := by
  induction apps with
  | nil => simp [printedElems, joinComma]
  | cons a t ih =>
    cases t with
    | nil =>
      rw [List.map_cons, List.map_nil, printedElems_single]
      exact newline_not_in_printApp a
    | cons b t2 =>
      simp only [List.map_cons] at ih ⊢
      rw [printedElems_cons]
      intro hmem
      rcases List.mem_append.mp hmem with h | h
      · exact newline_not_in_printApp a h
      · rcases List.mem_cons.mp h with h1 | h1
        · exact absurd h1 (by decide)
        · exact ih h1

theorem newline_not_in_printCategory (c : Category) :
    '\n' ∉ printJson (categoryToJson c) := by
  rw [show categoryToJson c = Json.obj [("name", Json.str c.name),
    ("rank", rankToJson c.rank), ("apps", Json.arr (c.apps.map appToJson))] from rfl]
  rw [printJson_obj_fields, printedFields_cons, printedFields_cons, printedFields_single]
  rw [printJson_str, printJson_arr_elems]
  intro hmem
  have hrank : ∀ x, x ∈ printJson (rankToJson c.rank) → ¬(x = '\n') := by
    intro x hx he
    subst he
    cases hr : c.rank with
    | none =>
      rw [hr, show rankToJson none = Json.null from rfl, printJson_null] at hx
      exact absurd hx (by decide)
    | some r =>
      rw [hr, show rankToJson (some r) = Json.num r from rfl, printJson_num] at hx
      exact newline_not_in_intChars r hx
  have hrank2 : '\n' ∉ printJson (rankToJson c.rank) := fun hx => hrank '\n' hx rfl
  simp [newline_not_in_escapeBody, hrank2, newline_not_in_printedElems_apps] at hmem

theorem splitNl_append_line (l rest : List Char) (h : '\n' ∉ l) :
    splitNl (l ++ '\n' :: rest) = l :: splitNl rest := by
  induction l with
  | nil => simp [splitNl]
  | cons c t ih =>
    have hc : ¬(c = '\n') := fun he => h (he ▸ List.mem_cons_self c t)
    have ht : '\n' ∉ t := fun hm => h (List.mem_cons_of_mem c hm)
    rw [List.cons_append, splitNl]
    rw [if_neg hc, ih ht]

theorem linesOf_join (lines : List String)
    (h : ∀ s ∈ lines, '\n' ∉ s.data ∧ s.data.any (fun c => !(isJsWsCh c)) = true) :
    linesOf (joinNl lines ++ "\n") = lines := by
  induction lines with
  | nil => rfl
  | cons s t ih =>
    obtain ⟨hnl, hblank⟩ := h s (List.mem_cons_self s t)
    have ht : ∀ x ∈ t, '\n' ∉ x.data ∧ x.data.any (fun c => !(isJsWsCh c)) = true :=
      fun x hx => h x (List.mem_cons_of_mem s hx)
    cases t with
    | nil =>
      have hdata : (joinNl [s] ++ "\n").data = s.data ++ '\n' :: ([] : List Char) := by
        rw [show joinNl [s] = s from rfl]
        rw [String.data_append]
      unfold linesOf
      rw [hdata, splitNl_append_line s.data [] hnl]
      simp only [splitNl, List.map_cons, List.map_nil, List.filter_cons, List.filter_nil]
      rw [if_pos hblank, string_mk_data]
      simp
    | cons s2 t2 =>
      have hdata : (joinNl (s :: s2 :: t2) ++ "\n").data =
          s.data ++ '\n' :: (joinNl (s2 :: t2) ++ "\n").data := by
        rw [show joinNl (s :: s2 :: t2) = s ++ "\n" ++ joinNl (s2 :: t2) from rfl]
        simp [String.data_append]
      unfold linesOf
      rw [hdata, splitNl_append_line s.data _ hnl]
      simp only [List.map_cons, List.filter_cons]
      rw [if_pos hblank, string_mk_data]
      unfold linesOf at ih
      rw [ih ht]

theorem loadCategoriesLines_saved (store : CategoryStore) :
    ∀ acc : CategoryStore,
      (keysOf (acc ++ store)).Nodup → (∀ e ∈ store, e.2.name = e.1) →
      loadCategoriesLines (store.map (fun e => stringifyJson (categoryToJson e.2))) acc =
        acc ++ store := by
  induction store with
  | nil => intro acc _ _; simp [loadCategoriesLines]
  | cons e t ih =>
    intro acc hnd hcoh
    rw [List.map_cons, loadCategoriesLines]
    rw [jsonParse_stringify_category e.2]
    dsimp only
    rw [categoryOfJson_toJson e.2]
    have hname : e.2.name = e.1 := hcoh e (List.mem_cons_self e t)
    rw [hname]
    have hnotin : e.1 ∉ keysOf acc := by
      rw [keysOf_append] at hnd
      intro hin
      have h2 := (List.nodup_append.mp hnd).2.2
      exact h2 hin (by simp [keysOf])
    rw [setKey_of_not_mem acc e.1 e.2 hnotin]
    have hnd2 : (keysOf ((acc ++ [(e.1, e.2)]) ++ t)).Nodup := by
      have hre : (acc ++ [(e.1, e.2)]) ++ t = acc ++ (e.1, e.2) :: t := by simp
      rw [hre, show ((e.1, e.2) : String × Category) = e from rfl]
      exact hnd
    have hstep := ih (acc ++ [(e.1, e.2)]) hnd2
      (fun x hx => hcoh x (List.mem_cons_of_mem e hx))
    rw [hstep]
    simp

theorem loadCategories_roundtrip (store : CategoryStore) (prior : CategoryStore)
    (hnd : (keysOf store).Nodup) (hcoh : ∀ e ∈ store, e.2.name = e.1) :
    loadCategories (some (saveCategoriesToFile store)) prior = store := by
  unfold loadCategories saveCategoriesToFile
  dsimp only
  rw [linesOf_join (store.map (fun e => stringifyJson (categoryToJson e.2)))]
  · exact loadCategoriesLines_saved store [] (by simpa [keysOf] using hnd) hcoh
  · intro s hs
    rw [List.mem_map] at hs
    obtain ⟨e, _, rfl⟩ := hs
    refine ⟨?_, ?_⟩
    · show '\n' ∉ (String.mk (printJson (categoryToJson e.2))).data
      rw [show (String.mk (printJson (categoryToJson e.2))).data =
        printJson (categoryToJson e.2) from rfl]
      exact newline_not_in_printCategory e.2
    · rw [show (stringifyJson (categoryToJson e.2)).data =
        printJson (categoryToJson e.2) from rfl]
      rw [show categoryToJson e.2 = Json.obj [("name", Json.str e.2.name),
        ("rank", rankToJson e.2.rank),
        ("apps", Json.arr (e.2.apps.map appToJson))] from rfl]
      rw [printJson_obj_fields]
      simp [isJsWsCh]

/-! Lemma section: paths and self-echo (towards C9). -/

theorem recents_path_ne_categories_path (base : String) :
    recentsFilePathOf base ≠ categoriesFilePathOf base := by
  intro h
  have hlen := congrArg String.length h
  unfold recentsFilePathOf categoriesFilePathOf joinPath filesDirOf at hlen
  rw [String.length_append, String.length_append, String.length_append,
    String.length_append] at hlen
  have h1 : ("recents.jsonl" : String).length = 13 := rfl
  have h2 : ("categories.jsonl" : String).length = 16 := rfl
  omega

theorem watcher_ignores_recents_write (base : String) (now : Nat) (st : WatcherState) :
    watcherStepOnWrite (categoriesFilePathOf base) (recentsFilePathOf base) now st = st := by
  unfold watcherStepOnWrite monitorSeesWrite
  have hne : ¬(categoriesFilePathOf base = recentsFilePathOf base) :=
    fun h => recents_path_ne_categories_path base h.symm
  simp [hne]

/-! Lemma section: the shared debounce timer (towards C4). -/

theorem watcher_burst_fold (trace : List (Nat × WatchedEvent)) :
    ∀ (st : WatcherState) (B : Nat),
      (∀ te ∈ trace, te.1 < B ∧ B ≤ te.1 + RELOAD_DELAY_MS) →
      (∀ texp k, st.pending = some (texp, k) → B ≤ texp) →
      (trace.foldl stepWatcher st).reloadRuns = st.reloadRuns ∧
      (trace.foldl stepWatcher st).appRefreshRuns = st.appRefreshRuns ∧
      (match (trace.filterMap (fun te => armKind te.2)).getLast? with
       | some k => ∃ texp, B ≤ texp ∧ (trace.foldl stepWatcher st).pending = some (texp, k)
       | none => (trace.foldl stepWatcher st).pending = st.pending) := by
  induction trace with
  | nil =>
    intro st B _ _
    exact ⟨rfl, rfl, by simp [List.filterMap_nil]⟩
  | cons te tr ih =>
    intro st B htimes hpend
    have hno : fireDue te.1 st = st := by
      unfold fireDue
      cases hp : st.pending with
      | none => rfl
      | some p =>
        obtain ⟨texp, k⟩ := p
        have hB := hpend texp k hp
        have ht1 := (htimes te (List.mem_cons_self te tr)).1
        have hlt : ¬(texp ≤ te.1) := by omega
        simp [hlt]
    cases harm : armKind te.2 with
    | none =>
      have hsame : stepWatcher st te = st := by
        unfold stepWatcher handleWatchedEvent
        rw [hno, harm]
      rw [List.foldl_cons, hsame]
      have := ih st B (fun x hx => htimes x (List.mem_cons_of_mem te hx)) hpend
      simpa [List.filterMap_cons, harm] using this
    | some k =>
      have hsame : stepWatcher st te =
          { st with pending := some (te.1 + RELOAD_DELAY_MS, k) } := by
        unfold stepWatcher handleWatchedEvent
        rw [hno, harm]
      rw [List.foldl_cons, hsame]
      have hb : B ≤ te.1 + RELOAD_DELAY_MS := (htimes te (List.mem_cons_self te tr)).2
      have hrec := ih { st with pending := some (te.1 + RELOAD_DELAY_MS, k) } B
        (fun x hx => htimes x (List.mem_cons_of_mem te hx))
        (fun texp k' hpq => by
          simp only at hpq
          injection hpq with h1
          injection h1 with h2 h3
          omega)
      obtain ⟨hc1, hc2, hc3⟩ := hrec
      refine ⟨hc1, hc2, ?_⟩
      rw [List.filterMap_cons, harm]
      cases hlast : (tr.filterMap (fun te => armKind te.2)).getLast? with
      | none =>
        have hnil : tr.filterMap (fun te => armKind te.2) = [] :=
          List.getLast?_eq_none_iff.mp hlast
        rw [hnil]
        rw [hlast] at hc3
        dsimp only at hc3
        simp only [List.getLast?_singleton]
        exact ⟨te.1 + RELOAD_DELAY_MS, hb, hc3⟩
      | some k2 =>
        have hne : tr.filterMap (fun te => armKind te.2) ≠ [] := by
          intro hq
          rw [hq] at hlast
          simp at hlast
        obtain ⟨hd, tl, hcons⟩ := List.exists_cons_of_ne_nil hne
        rw [hcons, List.getLast?_cons_cons, ← hcons, hlast]
        rw [hlast] at hc3
        dsimp only at hc3 ⊢
        exact hc3

theorem runWatcherTrace_burst (t0 : Nat) (e0 : WatchedEvent)
    (rest : List (Nat × WatchedEvent))
    (htimes : ∀ te ∈ (t0, e0) :: rest, t0 ≤ te.1 ∧ te.1 < t0 + RELOAD_DELAY_MS)
    (hlast : (((t0, e0) :: rest).filterMap (fun te => armKind te.2)).getLast? =
      some TimerKind.categoriesReload) :
    (runWatcherTrace ((t0, e0) :: rest)).reloadRuns = 1 ∧
    (runWatcherTrace ((t0, e0) :: rest)).appRefreshRuns = 0 := by
  unfold runWatcherTrace
  have hfold := watcher_burst_fold ((t0, e0) :: rest) initWatcherState
    (t0 + RELOAD_DELAY_MS)
    (fun te hte => ⟨(htimes te hte).2, by have := (htimes te hte).1; omega⟩)
    (fun texp k hp => by simp [initWatcherState] at hp)
  obtain ⟨hc1, hc2, hc3⟩ := hfold
  rw [hlast] at hc3
  dsimp only at hc3
  obtain ⟨texp, -, hpend⟩ := hc3
  unfold firePending
  rw [hpend]
  dsimp only
  rw [hc1, hc2]
  exact ⟨rfl, rfl⟩

/-! Lemma section: the recents list invariant (towards C6 and C10). -/

theorem recId_mkRecent (id : String) (ts : Int) : recId (mkRecent id ts) = some id := rfl

theorem recTs_mkRecent (id : String) (ts : Int) : recTs (mkRecent id ts) = some ts := rfl

theorem bumpRecent_invalid (id : String) (ts : Int) (l : List Json)
    (h : id = "" ∨ strEndsWith id ".desktop" = false) :
    bumpRecent id ts l = (l, false) := by
  unfold bumpRecent
  rcases h with h | h
  · simp [h]
  · simp [h]

theorem bumpRecent_valid_eq (id : String) (ts : Int) (l : List Json)
    (h : strEndsWith id ".desktop" = true) :
    bumpRecent id ts l =
      ((mkRecent id ts :: l.filter (fun r =>
        match jsonGetField r "id" with
        | some (.str s) => !(s = id)
        | _ => true)).take MAX_RECENTS, true) := by
  have hne : ¬(id = "") := by
    intro he
    subst he
    rw [show strEndsWith "" ".desktop" = false from rfl] at h
    simp at h
  unfold bumpRecent mkRecent
  simp [hne, h]

theorem bump_preserves (id : String) (ts : Int) (l : List Json)
    (hinv : RecentsInvariant l) (hts : TsBelow l ts) :
    RecentsInvariant (bumpRecent id ts l).1 ∧
      (∀ t2, ts < t2 → TsBelow (bumpRecent id ts l).1 t2) := by
  obtain ⟨hlen, hnd, hids, htss, hpair⟩ := hinv
  by_cases hval : strEndsWith id ".desktop" = true
  · rw [bumpRecent_valid_eq id ts l hval]
    have hFsub : (l.filter (fun r =>
        match jsonGetField r "id" with
        | some (.str s) => !(s = id)
        | _ => true)).Sublist l := List.filter_sublist l
    have hTsub : ((mkRecent id ts :: l.filter (fun r =>
        match jsonGetField r "id" with
        | some (.str s) => !(s = id)
        | _ => true)).take MAX_RECENTS).Sublist
        (mkRecent id ts :: l.filter (fun r =>
          match jsonGetField r "id" with
          | some (.str s) => !(s = id)
          | _ => true)) := List.take_sublist _ _
    have hmemT : ∀ j ∈ (mkRecent id ts :: l.filter (fun r =>
        match jsonGetField r "id" with
        | some (.str s) => !(s = id)
        | _ => true)).take MAX_RECENTS,
        j = mkRecent id ts ∨ j ∈ l := by
      intro j hj
      rcases List.mem_cons.mp (hTsub.mem hj) with h1 | h1
      · exact Or.inl h1
      · exact Or.inr (hFsub.mem h1)
    refine ⟨⟨?_, ?_, ?_, ?_, ?_⟩, ?_⟩
    · simp only [List.length_take]
      omega
    · have hsub2 : (recIds ((mkRecent id ts :: l.filter (fun r =>
          match jsonGetField r "id" with
          | some (.str s) => !(s = id)
          | _ => true)).take MAX_RECENTS)).Sublist
          (recIds (mkRecent id ts :: l.filter (fun r =>
            match jsonGetField r "id" with
            | some (.str s) => !(s = id)
            | _ => true))) := hTsub.filterMap recId
      refine hsub2.nodup ?_
      unfold recIds
      rw [List.filterMap_cons, recId_mkRecent]
      refine List.nodup_cons.mpr ⟨?_, ?_⟩
      · intro hmem
        rw [List.mem_filterMap] at hmem
        obtain ⟨j, hjF, hjid⟩ := hmem
        have hpred := List.of_mem_filter hjF
        unfold recId at hjid
        cases hg : jsonGetField j "id" with
        | none => rw [hg] at hjid; simp at hjid
        | some v =>
          cases v with
          | str s =>
            rw [hg] at hjid hpred
            simp at hjid
            subst hjid
            simp at hpred
          | null => rw [hg] at hjid; simp at hjid
          | bool b => rw [hg] at hjid; simp at hjid
          | num n => rw [hg] at hjid; simp at hjid
          | arr es => rw [hg] at hjid; simp at hjid
          | obj fs => rw [hg] at hjid; simp at hjid
      · exact (hFsub.filterMap recId).nodup hnd
    · intro j hj
      rcases hmemT j hj with h1 | h1
      · rw [h1, recId_mkRecent]; rfl
      · exact hids j h1
    · intro j hj
      rcases hmemT j hj with h1 | h1
      · rw [h1, recTs_mkRecent]; rfl
      · exact htss j h1
    · refine List.Pairwise.sublist (hTsub.filterMap recTs) ?_
      rw [List.filterMap_cons, recTs_mkRecent]
      refine List.pairwise_cons.mpr ⟨?_, ?_⟩
      · intro v hv
        rw [List.mem_filterMap] at hv
        obtain ⟨j, hjF, hjts⟩ := hv
        exact hts j (hFsub.mem hjF) v hjts
      · exact List.Pairwise.sublist (hFsub.filterMap recTs) hpair
    · intro t2 ht2 j hj t' ht'
      rcases hmemT j hj with h1 | h1
      · rw [h1, recTs_mkRecent] at ht'
        injection ht' with h2
        omega
      · exact lt_trans (hts j h1 t' ht') ht2
  · have hfalse : strEndsWith id ".desktop" = false := by
      cases hb : strEndsWith id ".desktop" with
      | true => exact absurd hb hval
      | false => rfl
    rw [bumpRecent_invalid id ts l (Or.inr hfalse)]
    refine ⟨⟨hlen, hnd, hids, htss, hpair⟩, ?_⟩
    intro t2 ht2 j hj t' ht'
    exact lt_trans (hts j hj t' ht') ht2

theorem applyBumps_preserves (bumps : List (String × Int)) :
    ∀ l : List Json, RecentsInvariant l → bumpsApplicable bumps l →
      RecentsInvariant (applyBumps bumps l) := by
  induction bumps with
  | nil => intro l h _; exact h
  | cons b t ih =>
    intro l hinv happ
    obtain ⟨hts, hchain⟩ := happ
    have hb := bump_preserves b.1 b.2 l hinv hts
    have hstep : applyBumps (b :: t) l = applyBumps t (bumpRecent b.1 b.2 l).1 := rfl
    rw [hstep]
    refine ih _ hb.1 ?_
    cases t with
    | nil => trivial
    | cons b2 t2 =>
      obtain ⟨hrel, hrest⟩ := List.chain'_cons.mp hchain
      exact ⟨hb.2 b2.2 hrel, hrest⟩

/-! Lemma section: characterization of `cleanupCategories` (towards C8). -/

theorem getKey_map (f : α → β) (l : List (String × α)) (k : String) :
    getKey (l.map (fun e => (e.1, f e.2))) k = (getKey l k).map f := by
  induction l with
  | nil => rfl
  | cons e t ih =>
    obtain ⟨k', v⟩ := e
    by_cases h : k' = k
    · simp [getKey, h]
    · simp [getKey, h, ih]

theorem keysOf_map_snd (f : α → β) (l : List (String × α)) :
    keysOf (l.map (fun e => (e.1, f e.2))) = keysOf l := by
  induction l with
  | nil => rfl
  | cons e t ih =>
    simp only [List.map_cons, keysOf] at ih ⊢
    rw [ih]

theorem filter_length_eq_iff (p : α → Bool) (l : List α) :
    (l.filter p).length = l.length ↔ ∀ a ∈ l, p a = true := by
  constructor
  · intro h
    have heq := (List.filter_sublist l (p := p)).eq_of_length h
    intro a ha
    rw [← heq] at ha
    exact List.of_mem_filter ha
  · intro h
    rw [List.filter_eq_self.mpr h]

theorem rankSeq_eq_map_range (n : Nat) :
    rankSeq n = (List.range n).map (fun j : Nat => (j : Int) + 1) := by
  induction n with
  | zero => rfl
  | succ n ih =>
    rw [rankSeq_succ, ih, List.range_succ, List.map_append]
    rfl

theorem reRankFrom_map_id (l : List AppEntry) :
    ∀ i, (reRankFrom i l).map (fun a => a.id) = l.map (fun a => a.id) := by
  induction l with
  | nil => intro i; rfl
  | cons a as ih =>
    intro i
    simp [reRankFrom, ih (i + 1)]

theorem reRankFrom_map_name (l : List AppEntry) :
    ∀ i, (reRankFrom i l).map (fun a => a.name) = l.map (fun a => a.name) := by
  induction l with
  | nil => intro i; rfl
  | cons a as ih =>
    intro i
    simp [reRankFrom, ih (i + 1)]

theorem reRankFrom_map_rank (l : List AppEntry) :
    ∀ i, (reRankFrom i l).map (fun a => a.rank)
      = (List.range' i l.length).map (fun j : Nat => (j : Int)) := by
  induction l with
  | nil => intro i; rfl
  | cons a as ih =>
    intro i
    rw [List.length_cons, List.range'_succ]
    simp only [reRankFrom, List.map_cons]
    rw [ih (i + 1)]

theorem reRankFrom_one_map_rank (l : List AppEntry) :
    (reRankFrom 1 l).map (fun a => a.rank) = rankSeq l.length := by
  rw [reRankFrom_map_rank l 1, rankSeq_eq_map_range, List.range'_eq_map_range,
    List.map_map]
  refine List.map_congr_left ?_
  intro j _
  simp only [Function.comp_apply]
  push_cast
  ring

theorem categoryShrinks_iff (p : String → Bool) (c : Category) :
    categoryShrinks p c = true ↔ ∃ a ∈ c.apps, p (desktopIdOf a.id) = false := by
  unfold categoryShrinks
  rw [Bool.and_eq_true, Bool.not_eq_true', Bool.not_eq_true', List.isEmpty_eq_false]
  constructor
  · rintro ⟨-, h2⟩
    have hne : ¬ ((c.apps.filter (fun a => p (desktopIdOf a.id))).length = c.apps.length) := by
      simpa using h2
    by_contra hno
    push_neg at hno
    apply hne
    apply (filter_length_eq_iff _ _).mpr
    intro a ha
    have := hno a ha
    cases hb : p (desktopIdOf a.id) with
    | true => rfl
    | false => exact absurd hb this
  · rintro ⟨a, ha, hfail⟩
    refine ⟨?_, ?_⟩
    · intro hemp
      rw [hemp] at ha
      exact absurd ha (List.not_mem_nil a)
    · have hne : ¬ ((c.apps.filter (fun a => p (desktopIdOf a.id))).length = c.apps.length) := by
        intro hl
        have := (filter_length_eq_iff _ _).mp hl a ha
        rw [hfail] at this
        exact Bool.false_ne_true this
      simpa using hne

theorem cleanupCategory_untouched (p : String → Bool) (c : Category)
    (h : ∀ a ∈ c.apps, p (desktopIdOf a.id) = true) :
    cleanupCategory p c = c := by
  unfold cleanupCategory
  by_cases he : c.apps.isEmpty
  · rw [if_pos he]
  · rw [if_neg he, if_pos]
    rw [List.filter_eq_self.mpr h]

theorem cleanupCategory_changed (p : String → Bool) (c : Category)
    (h : ∃ a ∈ c.apps, p (desktopIdOf a.id) = false) :
    cleanupCategory p c = { c with apps := reRankFrom 1 ((c.apps.filter (fun a => p (desktopIdOf a.id))).mergeSort appRankLe) } := by
  obtain ⟨a, ha, hfail⟩ := h
  have hne : ¬ (c.apps.isEmpty = true) := by
    intro hemp
    rw [List.isEmpty_iff] at hemp
    rw [hemp] at ha
    exact absurd ha (List.not_mem_nil a)
  have hlen : ¬ ((c.apps.filter (fun a => p (desktopIdOf a.id))).length = c.apps.length) := by
    intro hl
    have := (filter_length_eq_iff _ _).mp hl a ha
    rw [hfail] at this
    exact Bool.false_ne_true this
  unfold cleanupCategory
  rw [if_neg hne, if_neg hlen]

theorem appRankLe_trans (a b c : AppEntry) :
    appRankLe a b = true → appRankLe b c = true → appRankLe a c = true := by
  unfold appRankLe
  intro h1 h2
  simp at h1 h2 ⊢
  omega

theorem appRankLe_total (a b : AppEntry) :
    (appRankLe a b || appRankLe b a) = true := by
  unfold appRankLe
  simp
  omega

theorem cleanupCategory_spec_changed (p : String → Bool) (c : Category)
    (h : ∃ a ∈ c.apps, p (desktopIdOf a.id) = false) :
    ∃ s : List AppEntry,
      s.Perm (c.apps.filter (fun a => p (desktopIdOf a.id))) ∧
      s.Pairwise (fun a b => a.rank ≤ b.rank) ∧
      (cleanupCategory p c).apps.map (fun a => a.id) = s.map (fun a => a.id) ∧
      (cleanupCategory p c).apps.map (fun a => a.name) = s.map (fun a => a.name) ∧
      (cleanupCategory p c).apps.map (fun a => a.rank) = rankSeq s.length := by
  refine ⟨(c.apps.filter (fun a => p (desktopIdOf a.id))).mergeSort appRankLe,
    List.mergeSort_perm _ _, ?_, ?_, ?_, ?_⟩
  · have := List.sorted_mergeSort appRankLe_trans appRankLe_total
      (c.apps.filter (fun a => p (desktopIdOf a.id)))
    refine this.imp ?_
    intro a b hab
    simpa [appRankLe] using hab
  · rw [cleanupCategory_changed p c h]
    exact reRankFrom_map_id _ 1
  · rw [cleanupCategory_changed p c h]
    exact reRankFrom_map_name _ 1
  · rw [cleanupCategory_changed p c h]
    exact reRankFrom_one_map_rank _

theorem cleanupCategories_changed_iff (p : String → Bool) (store : CategoryStore) :
    (cleanupCategories p store).2 = true ↔
      ∃ e ∈ store, ∃ a ∈ e.2.apps, p (desktopIdOf a.id) = false := by
  unfold cleanupCategories
  rw [List.any_eq_true]
  constructor
  · rintro ⟨e, he, hsh⟩
    exact ⟨e, he, (categoryShrinks_iff p e.2).mp hsh⟩
  · rintro ⟨e, he, hex⟩
    exact ⟨e, he, (categoryShrinks_iff p e.2).mpr hex⟩

/-! Lemma section: structure of the rank-sorted category list (towards C7). -/

theorem filterIsSome_map_getD (l : List Category) :
    (l.filter (fun c => c.rank.isSome)).map (fun c => c.rank.getD 0)
      = l.filterMap (fun c => c.rank) := by
  induction l with
  | nil => rfl
  | cons c t ih =>
    cases hr : c.rank with
    | none => simp [List.filter_cons, List.filterMap_cons, hr, ih]
    | some r => simp [List.filter_cons, List.filterMap_cons, hr, ih]

theorem catRanks_eq_values (store : CategoryStore) :
    catRanks store = (store.map Prod.snd).filterMap (fun c => c.rank) := by
  rw [List.filterMap_map]
  rfl

theorem rankedSortedCats_perm (store : CategoryStore) :
    (rankedSortedCats store).Perm
      ((store.map Prod.snd).filter (fun c => c.rank.isSome)) :=
  List.mergeSort_perm _ _

theorem catRankLe_trans (a b c : Category) :
    catRankLe a b = true → catRankLe b c = true → catRankLe a c = true := by
  unfold catRankLe
  intro h1 h2
  simp at h1 h2 ⊢
  omega

theorem catRankLe_total (a b : Category) :
    (catRankLe a b || catRankLe b a) = true := by
  unfold catRankLe
  simp
  omega

theorem rankedSortedCats_sorted (store : CategoryStore) :
    (rankedSortedCats store).Pairwise (fun a b => a.rank.getD 0 ≤ b.rank.getD 0) := by
  have := List.sorted_mergeSort catRankLe_trans catRankLe_total
    ((store.map Prod.snd).filter (fun c => c.rank.isSome))
  refine this.imp ?_
  intro a b hab
  simpa [catRankLe] using hab

theorem valRanks_perm_catRanks (store : CategoryStore) :
    ((rankedSortedCats store).map (fun c => c.rank.getD 0)).Perm (catRanks store) := by
  have h1 := (rankedSortedCats_perm store).map (fun c => c.rank.getD 0)
  rw [filterIsSome_map_getD, ← catRanks_eq_values] at h1
  exact h1

theorem rankSeq_pairwise_lt (n : Nat) : (rankSeq n).Pairwise (· < ·) := by
  rw [rankSeq_eq_map_range]
  rw [List.pairwise_map]
  refine (List.pairwise_lt_range n).imp ?_
  intro a b hab
  omega

theorem rankSeq_nodup (n : Nat) : (rankSeq n).Nodup :=
  (rankSeq_pairwise_lt n).imp (fun h => ne_of_lt h)

theorem valRanks_eq (store : CategoryStore) (hdense : DenseRanks store) :
    (rankedSortedCats store).map (fun c => c.rank.getD 0)
      = rankSeq (catRanks store).length := by
  refine List.eq_of_perm_of_sorted (r := (· ≤ · : Int → Int → Prop))
    ((valRanks_perm_catRanks store).trans hdense) ?_ ?_
  · exact List.pairwise_map.mpr (rankedSortedCats_sorted store)
  · exact (rankSeq_pairwise_lt _).imp (fun h => le_of_lt h)

theorem rankedSortedCats_length (store : CategoryStore) :
    (rankedSortedCats store).length = (catRanks store).length := by
  have := (valRanks_perm_catRanks store).length_eq
  rw [List.length_map] at this
  exact this

theorem mem_rankedSortedCats (store : CategoryStore) (c : Category) :
    c ∈ rankedSortedCats store ↔ c ∈ store.map Prod.snd ∧ c.rank.isSome = true := by
  rw [(rankedSortedCats_perm store).mem_iff, List.mem_filter]

theorem rankSeq_getElem (n : Nat) (j : Nat) (hj : j < (rankSeq n).length) :
    (rankSeq n).get ⟨j, hj⟩ = (j : Int) + 1 := by
  have hj' : j < n := by rw [rankSeq_length] at hj; exact hj
  simp [rankSeq_eq_map_range, List.get_eq_getElem, List.getElem_map, List.getElem_range]

theorem rankedSortedCats_rank_getElem (store : CategoryStore) (hdense : DenseRanks store)
    (j : Nat) (hj : j < (rankedSortedCats store).length) :
    ((rankedSortedCats store).get ⟨j, hj⟩).rank = some ((j : Int) + 1) := by
  have hmem : (rankedSortedCats store).get ⟨j, hj⟩ ∈ rankedSortedCats store :=
    List.get_mem _ _ hj
  have hsome : ((rankedSortedCats store).get ⟨j, hj⟩).rank.isSome = true :=
    ((mem_rankedSortedCats store _).mp hmem).2
  have hval : ((rankedSortedCats store).get ⟨j, hj⟩).rank.getD 0 = (j : Int) + 1 := by
    have hmap := valRanks_eq store hdense
    have hj2 : j < ((rankedSortedCats store).map (fun c => c.rank.getD 0)).length := by
      rw [List.length_map]; exact hj
    have h4 := List.get_of_eq hmap ⟨j, hj2⟩
    simp only [List.get_eq_getElem, List.getElem_map] at h4
    have hj3 : j < (rankSeq (catRanks store).length).length := by
      rw [rankSeq_length, ← rankedSortedCats_length store]; exact hj
    have hr := rankSeq_getElem (catRanks store).length j hj3
    simp only [List.get_eq_getElem] at hr
    rw [List.get_eq_getElem, h4]
    exact hr
  obtain ⟨x, hx⟩ := Option.isSome_iff_exists.mp hsome
  rw [hx] at hval ⊢
  simp only [Option.getD_some] at hval
  rw [hval]

theorem rankedSortedCats_names_nodup (store : CategoryStore)
    (hnd : (keysOf store).Nodup) (hcoh : ∀ e ∈ store, e.2.name = e.1) :
    ((rankedSortedCats store).map (fun c => c.name)).Nodup := by
  have hvals : (store.map Prod.snd).map (fun c => c.name) = keysOf store := by
    rw [List.map_map]
    exact List.map_congr_left (fun e he => hcoh e he)
  have hsub : (((store.map Prod.snd).filter (fun c => c.rank.isSome)).map
      (fun c => c.name)).Sublist ((store.map Prod.snd).map (fun c => c.name)) :=
    (List.filter_sublist _).map _
  have hnodupL : (((store.map Prod.snd).filter (fun c => c.rank.isSome)).map
      (fun c => c.name)).Nodup := by
    refine hsub.nodup ?_
    rw [hvals]
    exact hnd
  exact (((rankedSortedCats_perm store).map (fun c => c.name)).nodup_iff).mpr hnodupL

theorem rankedSortedCats_rank_inj (store : CategoryStore) (hdense : DenseRanks store)
    (x y : Category) (hx : x ∈ rankedSortedCats store) (hy : y ∈ rankedSortedCats store)
    (hr : x.rank = y.rank) : x = y := by
  have hnodup : ((rankedSortedCats store).map (fun c => c.rank.getD 0)).Nodup := by
    rw [valRanks_eq store hdense]
    exact rankSeq_nodup _
  exact List.inj_on_of_nodup_map hnodup hx hy (by rw [hr])

theorem findIdxByName_of_get (l : List Category) (nm : String) :
    ∀ (j : Nat) (hj : j < l.length), (l.get ⟨j, hj⟩).name = nm →
      (l.map (fun c => c.name)).Nodup → findIdxByName l nm = some j := by
  induction l with
  | nil => intro j hj; simp at hj
  | cons c t ih =>
    intro j hj hname hnodup
    cases j with
    | zero =>
      simp only [List.get] at hname
      simp [findIdxByName, hname]
    | succ j' =>
      have hj' : j' < t.length := by
        rw [List.length_cons] at hj
        omega
      have hgetname : (t.get ⟨j', hj'⟩).name = nm := hname
      rw [List.map_cons, List.nodup_cons] at hnodup
      have hcne : ¬ (c.name = nm) := by
        intro hce
        apply hnodup.1
        rw [hce, ← hgetname]
        exact List.mem_map_of_mem _ (List.get_mem t _ hj')
      rw [findIdxByName, if_neg hcne, ih j' hj' hgetname hnodup.2]
      rfl

theorem getKey_swapRanks (name : String) (cur target : Category) (k : String) :
    ∀ store : CategoryStore, getKey (swapRanks store name cur target) k =
      (getKey store k).map (fun d =>
        if k = name then { d with rank := target.rank }
        else if d.name = target.name then { d with rank := cur.rank }
        else d) := by
  intro store
  induction store with
  | nil => rfl
  | cons e t ih =>
    obtain ⟨k2, v⟩ := e
    by_cases h1 : k2 = name
    · have hcons : swapRanks ((k2, v) :: t) name cur target
          = (k2, { v with rank := target.rank }) :: swapRanks t name cur target := by
        unfold swapRanks
        rw [List.map_cons]
        dsimp only
        rw [if_pos h1]
      by_cases h3 : k2 = k
      · subst h3
        rw [hcons]
        simp [getKey, h1]
      · rw [hcons]
        simp [getKey, h3, ih]
    · by_cases h2 : v.name = target.name
      · have hcons : swapRanks ((k2, v) :: t) name cur target
            = (k2, { v with rank := cur.rank }) :: swapRanks t name cur target := by
          unfold swapRanks
          rw [List.map_cons]
          dsimp only
          rw [if_neg h1, if_pos h2]
        by_cases h3 : k2 = k
        · subst h3
          rw [hcons]
          simp [getKey, h1, h2]
        · rw [hcons]
          simp [getKey, h3, ih]
      · have hcons : swapRanks ((k2, v) :: t) name cur target
            = (k2, v) :: swapRanks t name cur target := by
          unfold swapRanks
          rw [List.map_cons]
          dsimp only
          rw [if_neg h1, if_neg h2]
        by_cases h3 : k2 = k
        · subst h3
          rw [hcons]
          simp [getKey, h1, h2]
        · rw [hcons]
          simp [getKey, h3, ih]

/-! Lemma section: behavior of `moveSelectedCategory` (towards C7). -/

theorem values_names_nodup (store : CategoryStore)
    (hnd : (keysOf store).Nodup) (hcoh : ∀ e ∈ store, e.2.name = e.1) :
    ((store.map Prod.snd).map (fun c => c.name)).Nodup := by
  have hvals : (store.map Prod.snd).map (fun c => c.name) = keysOf store := by
    rw [List.map_map]
    exact List.map_congr_left (fun e he => hcoh e he)
  rw [hvals]
  exact hnd

theorem getKey_rank_mem_catRanks (store : CategoryStore) (name : String)
    (cur : Category) (r : Int)
    (hget : getKey store name = some cur) (hrank : cur.rank = some r) :
    r ∈ catRanks store := by
  unfold catRanks
  rw [List.mem_filterMap]
  exact ⟨(name, cur), getKey_mem store name cur hget, hrank⟩

theorem rank_bounds_of_dense (store : CategoryStore) (hdense : DenseRanks store)
    (r : Int) (hr : r ∈ catRanks store) :
    1 ≤ r ∧ r ≤ ((catRanks store).length : Int) :=
  (mem_rankSeq (catRanks store).length r).mp (hdense.mem_iff.mp hr)

theorem sortedCats_index (store : CategoryStore) (name : String) (cur : Category) (r : Int)
    (hnd : (keysOf store).Nodup) (hcoh : ∀ e ∈ store, e.2.name = e.1)
    (hdense : DenseRanks store)
    (hget : getKey store name = some cur) (hrank : cur.rank = some r) :
    ∃ hlt : (r - 1).toNat < (rankedSortedCats store).length,
      (rankedSortedCats store).get ⟨(r - 1).toNat, hlt⟩ = cur ∧
      findIdxByName (rankedSortedCats store) name = some ((r - 1).toNat) := by
  have hb := rank_bounds_of_dense store hdense r
    (getKey_rank_mem_catRanks store name cur r hget hrank)
  have hlt : (r - 1).toNat < (rankedSortedCats store).length := by
    rw [rankedSortedCats_length]
    omega
  have hrel := rankedSortedCats_rank_getElem store hdense ((r - 1).toNat) hlt
  have hcast : (((r - 1).toNat : Int)) + 1 = r := by omega
  rw [hcast] at hrel
  have hcmem : cur ∈ rankedSortedCats store := by
    rw [mem_rankedSortedCats]
    refine ⟨List.mem_map_of_mem Prod.snd (getKey_mem store name cur hget), ?_⟩
    rw [hrank]
    rfl
  have hemem : (rankedSortedCats store).get ⟨(r - 1).toNat, hlt⟩ ∈ rankedSortedCats store :=
    List.get_mem _ _ hlt
  have heq : (rankedSortedCats store).get ⟨(r - 1).toNat, hlt⟩ = cur :=
    rankedSortedCats_rank_inj store hdense _ _ hemem hcmem (by rw [hrel, hrank])
  have hcname : cur.name = name := hcoh (name, cur) (getKey_mem store name cur hget)
  exact ⟨hlt, heq, findIdxByName_of_get _ name _ hlt (by rw [heq, hcname])
    (rankedSortedCats_names_nodup store hnd hcoh)⟩

theorem moveSelectedCategory_noop_unranked (store : CategoryStore) (name : String)
    (delta : Int) (cur : Category)
    (hget : getKey store name = some cur) (hrank : cur.rank = none) :
    moveSelectedCategory store name delta = (store, false) := by
  unfold moveSelectedCategory
  rw [hget]
  dsimp only
  rw [hrank]

theorem moveSelectedCategory_noop_oob (store : CategoryStore) (name : String)
    (delta : Int) (cur : Category) (r : Int)
    (hnd : (keysOf store).Nodup) (hcoh : ∀ e ∈ store, e.2.name = e.1)
    (hdense : DenseRanks store)
    (hget : getKey store name = some cur) (hrank : cur.rank = some r)
    (hcond : r + delta < 1 ∨ ((catRanks store).length : Int) < r + delta) :
    moveSelectedCategory store name delta = (store, false) := by
  obtain ⟨hlt, heq, hfind⟩ := sortedCats_index store name cur r hnd hcoh hdense hget hrank
  have hb := rank_bounds_of_dense store hdense r
    (getKey_rank_mem_catRanks store name cur r hget hrank)
  unfold moveSelectedCategory
  rw [hget]
  dsimp only
  rw [hrank]
  dsimp only
  rw [hfind]
  dsimp only
  split
  · rfl
  · next hc =>
    exfalso
    simp only [Bool.or_eq_true, decide_eq_true_eq, rankedSortedCats_length] at hc
    push_neg at hc
    omega

theorem moveSelectedCategory_swap (store : CategoryStore) (name : String)
    (delta : Int) (cur : Category) (r : Int)
    (hnd : (keysOf store).Nodup) (hcoh : ∀ e ∈ store, e.2.name = e.1)
    (hdense : DenseRanks store)
    (hget : getKey store name = some cur) (hrank : cur.rank = some r)
    (hlo : 1 ≤ r + delta) (hhi : r + delta ≤ ((catRanks store).length : Int)) :
    (moveSelectedCategory store name delta).2 = true ∧
    ∀ k, getKey (moveSelectedCategory store name delta).1 k =
      if k = name then some { cur with rank := some (r + delta) }
      else (getKey store k).map (fun d =>
        if d.rank = some (r + delta) then { d with rank := some r } else d) := by
  obtain ⟨hlt, heq, hfind⟩ := sortedCats_index store name cur r hnd hcoh hdense hget hrank
  have hb := rank_bounds_of_dense store hdense r
    (getKey_rank_mem_catRanks store name cur r hget hrank)
  have hidxlt : ((((r - 1).toNat : Int)) + delta).toNat < (rankedSortedCats store).length := by
    rw [rankedSortedCats_length]
    omega
  set T := (rankedSortedCats store).get
    ⟨((((r - 1).toNat : Int)) + delta).toNat, hidxlt⟩ with hT
  have hmove : moveSelectedCategory store name delta = (swapRanks store name cur T, true) := by
    unfold moveSelectedCategory
    rw [hget]
    dsimp only
    rw [hrank]
    dsimp only
    rw [hfind]
    dsimp only
    split
    · next hc =>
      exfalso
      simp only [Bool.or_eq_true, decide_eq_true_eq, rankedSortedCats_length] at hc
      rcases hc with hc | hc
      · omega
      · omega
    · rw [List.getElem?_eq_getElem hidxlt]
      dsimp only
      rw [hT, List.get_eq_getElem]
  have htmem : T ∈ rankedSortedCats store := by
    rw [hT]
    exact List.get_mem _ _ hidxlt
  have htrank : T.rank = some (r + delta) := by
    rw [hT]
    have hrel := rankedSortedCats_rank_getElem store hdense _ hidxlt
    rw [hrel]
    congr 1
    omega
  constructor
  · rw [hmove]
  · intro k
    rw [hmove]
    dsimp only
    rw [getKey_swapRanks]
    by_cases hk : k = name
    · subst hk
      have hfun2 : (fun d : Category => if k = k then { d with rank := T.rank }
            else if d.name = T.name then { d with rank := cur.rank } else d)
          = (fun d : Category => { d with rank := T.rank }) := by
        funext d
        rw [if_pos rfl]
      rw [hfun2, hget, Option.map_some', htrank, if_pos rfl]
    · rw [if_neg hk]
      have hfun : (fun d : Category => if k = name then { d with rank := T.rank }
            else if d.name = T.name then { d with rank := cur.rank } else d)
          = (fun d : Category => if d.name = T.name then { d with rank := cur.rank }
            else d) := by
        funext d
        rw [if_neg hk]
      rw [hfun]
      cases hgk : getKey store k with
      | none => rfl
      | some d =>
        rw [Option.map_some', Option.map_some']
        by_cases hdr : d.rank = some (r + delta)
        · have hdmem : d ∈ rankedSortedCats store := by
            rw [mem_rankedSortedCats]
            refine ⟨List.mem_map_of_mem Prod.snd (getKey_mem store k d hgk), ?_⟩
            rw [hdr]
            rfl
          have hdt : d = T :=
            rankedSortedCats_rank_inj store hdense _ _ hdmem htmem (by rw [hdr, htrank])
          rw [if_pos (by rw [hdt]), if_pos hdr, hrank]
        · have hdnt : ¬ (d.name = T.name) := by
            intro hn
            have hdv : d ∈ store.map Prod.snd :=
              List.mem_map_of_mem Prod.snd (getKey_mem store k d hgk)
            have htv : T ∈ store.map Prod.snd :=
              ((mem_rankedSortedCats store _).mp htmem).1
            have hde := List.inj_on_of_nodup_map (values_names_nodup store hnd hcoh) hdv htv hn
            exact hdr (by rw [hde, htrank])
          rw [if_neg hdnt, if_neg hdr]

/-! Lemma section: the all-or-nothing recents parse and the partial
category load (towards C2 and C5). -/

theorem mapM_option_none (f : α → Option β) :
    ∀ l : List α, (∃ a ∈ l, f a = none) → l.mapM f = none := by
  intro l
  induction l with
  | nil =>
    rintro ⟨a, ha, -⟩
    exact absurd ha (List.not_mem_nil a)
  | cons a t ih =>
    rintro ⟨b, hb, hfb⟩
    rw [List.mapM_cons]
    rcases List.mem_cons.mp hb with h | h
    · subst h
      rw [hfb]
      rfl
    · cases hfa : f a with
      | none => rfl
      | some v =>
        rw [ih ⟨b, h, hfb⟩]
        rfl

theorem mapM_option_all_some (f : α → Option β) :
    ∀ l : List α, (∀ a ∈ l, (f a).isSome) → l.mapM f = some (l.filterMap f) := by
  intro l
  induction l with
  | nil =>
    intro _
    rfl
  | cons a t ih =>
    intro h
    obtain ⟨v, hv⟩ := Option.isSome_iff_exists.mp (h a (List.mem_cons_self a t))
    rw [List.mapM_cons, hv, ih (fun b hb => h b (List.mem_cons_of_mem a hb))]
    rw [List.filterMap_cons, hv]
    rfl

theorem loadRecents_abort (text : String)
    (h : ∃ l ∈ linesOf text, jsonParse l = none) :
    loadRecents (some text) = [] := by
  unfold loadRecents
  dsimp only
  rw [mapM_option_none jsonParse (linesOf text) h]

theorem loadRecents_allParse (text : String)
    (h : ∀ l ∈ linesOf text, (jsonParse l).isSome) :
    loadRecents (some text) = specLoadRecents (some text) := by
  unfold loadRecents specLoadRecents
  dsimp only
  rw [mapM_option_all_some jsonParse (linesOf text) h]

theorem loadCategoriesLines_stop :
    ∀ (ls : List String) (acc : CategoryStore),
      loadCategoriesLines ls acc = loadCategoriesLines (goodLineRun ls) acc := by
  intro ls
  induction ls with
  | nil => intro acc; rfl
  | cons l t ih =>
    intro acc
    cases hp : jsonParse l with
    | none => simp [loadCategoriesLines, goodLineRun, hp]
    | some j => simp [loadCategoriesLines, goodLineRun, hp, ih]

/-! Claim theorems. -/

/-- C1 (amended): starting from a map with dense ranks, the four
store-producing operations preserve density, provided the added name is
fresh, and an update targets an existing ranked category and renames it
either to itself or to a fresh name.  (The unamended claim fails when the
add handler is used with an already-present name; see the
counterexample.) -/
theorem claim_C1 (store : CategoryStore) (hdense : DenseRanks store) :
    (∀ name apps, name ∉ keysOf store →
      DenseRanks (addHandlerNewCategory store name apps)) ∧
    (∀ oldName newName apps c r, (keysOf store).Nodup →
      getKey store oldName = some c → c.rank = some r →
      (newName = oldName ∨ newName ∉ keysOf store) →
      DenseRanks (addHandlerUpdateCategory store oldName newName apps)) ∧
    (∀ name, (keysOf store).Nodup → DenseRanks (removeHandlerCategory store name)) ∧
    (∀ p, DenseRanks ((cleanupCategories p store).1)) := by
  refine ⟨?_, ?_, ?_, ?_⟩
  · intro name apps hfresh
    exact denseRanks_addNew store name apps hdense hfresh
  · intro oldName newName apps c r hnd hget hrank hfresh
    exact denseRanks_update store oldName newName apps c r hnd hdense hget hrank hfresh
  · intro name hnd
    exact denseRanks_remove store name hnd
  · intro p
    exact denseRanks_cleanup p store hdense

/-- Witness for C1 at the concrete two-category store. -/
theorem claim_C1_witness :
    DenseRanks exStore ∧
    DenseRanks (addHandlerNewCategory exStore "Other" []) ∧
    DenseRanks (removeHandlerCategory exStore "Work") ∧
    DenseRanks ((cleanupCategories (fun _ => false) exStore).1) := by
  have h := claim_C1 exStore (by decide)
  exact ⟨by decide, h.1 "Other" [] (by decide), h.2.2.1 "Work" (by decide),
    h.2.2.2 (fun _ => false)⟩

/-- Counterexample to the unamended C1: adding a category whose name is
already a key of the map replaces that entry with rank `max + 1`, leaving
a gap where the replaced rank was. -/
theorem claim_C1_counterexample :
    DenseRanks exStore ∧ ¬ DenseRanks (addHandlerNewCategory exStore "Work" []) := by
  decide

/-- C2 (amended): the recents loader parses all lines at once inside one
`try`, so a single malformed line makes the whole load yield the empty
list; only when every line parses does the result equal the well-formed
records in file order truncated to capacity, and a missing file yields the
empty list.  (The unamended claim — malformed lines are skipped
individually — fails; see the counterexample.) -/
theorem claim_C2 (text : String) :
    loadRecents none = [] ∧
    ((∃ l ∈ linesOf text, jsonParse l = none) → loadRecents (some text) = []) ∧
    ((∀ l ∈ linesOf text, (jsonParse l).isSome) →
      loadRecents (some text) = specLoadRecents (some text)) := by
  refine ⟨rfl, ?_, ?_⟩
  · exact loadRecents_abort text
  · exact loadRecents_allParse text

/-- Witness for C2 at the concrete two-line file. -/
theorem claim_C2_witness :
    (∃ l ∈ linesOf exBadRecentsText, jsonParse l = none) ∧
    loadRecents (some exBadRecentsText) = [] := by
  have hex : ∃ l ∈ linesOf exBadRecentsText, jsonParse l = none :=
    ⟨"not json", by decide, rfl⟩
  exact ⟨hex, (claim_C2 exBadRecentsText).2.1 hex⟩

/-- Counterexample to the unamended C2: a file with one well-formed line
followed by one malformed line loads as the empty list, not as the list of
well-formed records. -/
theorem claim_C2_counterexample :
    loadRecents (some exBadRecentsText) = [] ∧
    specLoadRecents (some exBadRecentsText) = [exGoodRecent] ∧
    ([] : List Json) ≠ [exGoodRecent] := by
  refine ⟨rfl, rfl, ?_⟩
  intro h
  exact List.cons_ne_nil _ _ h.symm

/-- C3: on any store whose keys are unique and coherent with the stored
category names, saving to the line-JSON file format and loading it back
reproduces the store exactly. -/
theorem claim_C3 (store prior : CategoryStore)
    (hnd : (keysOf store).Nodup) (hcoh : ∀ e ∈ store, e.2.name = e.1) :
    loadCategories (some (saveCategoriesToFile store)) prior = store :=
  loadCategories_roundtrip store prior hnd hcoh

/-- Witness for C3 at the concrete two-category store. -/
theorem claim_C3_witness :
    (keysOf exStore).Nodup ∧ (∀ e ∈ exStore, e.2.name = e.1) ∧
    loadCategories (some (saveCategoriesToFile exStore)) [] = exStore :=
  ⟨by decide, by decide, claim_C3 exStore [] (by decide) (by decide)⟩

/-- C4 (amended): for a burst of watched events inside one 500 ms window,
the reload callback runs exactly once and the app-refresh callback not at
all, provided the LAST event that arms the shared debounce timer is a
qualifying categories-file event.  (The unamended claim — reload runs once
even when other watched events arrive in the window — fails because all
watch sources share one timer handle; see the counterexample.) -/
theorem claim_C4 (t0 : Nat) (e0 : WatchedEvent) (rest : List (Nat × WatchedEvent))
    (htimes : ∀ te ∈ (t0, e0) :: rest, t0 ≤ te.1 ∧ te.1 < t0 + RELOAD_DELAY_MS)
    (hlast : (((t0, e0) :: rest).filterMap (fun te => armKind te.2)).getLast?
      = some TimerKind.categoriesReload) :
    (runWatcherTrace ((t0, e0) :: rest)).reloadRuns = 1 ∧
    (runWatcherTrace ((t0, e0) :: rest)).appRefreshRuns = 0 :=
  runWatcherTrace_burst t0 e0 rest htimes hlast

/-- Witness for C4: two qualifying categories-file events 100 ms apart
yield exactly one reload. -/
theorem claim_C4_witness :
    (runWatcherTrace [(0, WatchedEvent.catFileEvent FileMonitorEvent.changesDoneHint),
      (100, WatchedEvent.catFileEvent FileMonitorEvent.created)]).reloadRuns = 1 ∧
    (runWatcherTrace [(0, WatchedEvent.catFileEvent FileMonitorEvent.changesDoneHint),
      (100, WatchedEvent.catFileEvent FileMonitorEvent.created)]).appRefreshRuns = 0 :=
  claim_C4 0 (WatchedEvent.catFileEvent FileMonitorEvent.changesDoneHint)
    [(100, WatchedEvent.catFileEvent FileMonitorEvent.created)] (by decide) rfl

/-- Counterexample to the unamended C4: an application-directory event
100 ms after a qualifying categories-file event re-targets the shared
debounce timer, so the categories reload never runs. -/
theorem claim_C4_counterexample :
    qualifiesForReload FileMonitorEvent.changesDoneHint = true ∧
    (runWatcherTrace exC4Trace).reloadRuns = 0 ∧
    (runWatcherTrace exC4Trace).appRefreshRuns = 1 :=
  ⟨rfl, rfl, rfl⟩

/-- C5 (amended): a missing or unreadable categories file leaves the prior
in-memory map unchanged, but a parse failure in the middle of a readable
file does NOT restore the prior map: the map is cleared and holds exactly
the categories decoded from the lines before the first malformed one,
independent of the prior state.  (The unamended claim — every failure
leaves the prior state exactly as it was — fails; see the
counterexample.) -/
theorem claim_C5 (text : String) (prior prior2 : CategoryStore) :
    loadCategories none prior = prior ∧
    loadCategories (some text) prior
      = loadCategoriesLines (goodLineRun (linesOf text)) [] ∧
    loadCategories (some text) prior = loadCategories (some text) prior2 := by
  refine ⟨rfl, ?_, rfl⟩
  unfold loadCategories
  dsimp only
  exact loadCategoriesLines_stop (linesOf text) []

/-- Counterexample to the unamended C5: loading a file whose second line
is malformed replaces the prior two-category map by the one category of
the first line instead of leaving the map unchanged. -/
theorem claim_C5_counterexample :
    loadCategories (some exBadCatsText) exStore = [("Other", ⟨"Other", none, []⟩)] ∧
    ¬ (loadCategories (some exBadCatsText) exStore = exStore) := by
  decide

/-- C6: any admissible sequence of bump calls preserves the recents
invariant (at most 15 records, no id twice, string ids, timestamps
strictly decreasing so the most recent is first); a valid bump filters the
old occurrence out, prepends the fresh record and truncates to capacity;
and bump(x), bump(y), bump(x) from the empty list yields [x, y]. -/
theorem claim_C6 :
    (∀ bumps l, RecentsInvariant l → bumpsApplicable bumps l →
      RecentsInvariant (applyBumps bumps l)) ∧
    (∀ id ts l, strEndsWith id ".desktop" = true →
      bumpRecent id ts l = ((mkRecent id ts :: l.filter (fun r =>
        match jsonGetField r "id" with
        | some (.str s) => !(s = id)
        | _ => true)).take MAX_RECENTS, true)) ∧
    applyBumps [("x.desktop", 1), ("y.desktop", 2), ("x.desktop", 3)] []
      = [mkRecent "x.desktop" 3, mkRecent "y.desktop" 2] := by
  refine ⟨?_, ?_, rfl⟩
  · intro bumps l hinv happ
    exact applyBumps_preserves bumps l hinv happ
  · intro id ts l h
    exact bumpRecent_valid_eq id ts l h

/-- Witness for C6 at a concrete bump. -/
theorem claim_C6_witness :
    RecentsInvariant (applyBumps [("a.desktop", 5)] []) ∧
    bumpRecent "b.desktop" 9 [] = ([mkRecent "b.desktop" 9], true) := by
  constructor
  · exact claim_C6.1 [("a.desktop", 5)] [] (by simp [RecentsInvariant, recIds])
      (by simp [bumpsApplicable, TsBelow])
  · exact (claim_C6.2.1 "b.desktop" 9 [] (by decide)).trans rfl

/-- C7: on a coherent map with unique keys and dense ranks, moving a
selected category swaps its rank with the category holding the adjacent
rank and changes nothing else, saves the result, and is a silent no-op
(state unchanged, nothing saved) when the category is unranked or the
requested neighbor rank falls outside 1..N. -/
theorem claim_C7 (store : CategoryStore) (name : String) (delta : Int) (cur : Category)
    (hnd : (keysOf store).Nodup) (hcoh : ∀ e ∈ store, e.2.name = e.1)
    (hdense : DenseRanks store) (hget : getKey store name = some cur) :
    (cur.rank = none → moveSelectedCategory store name delta = (store, false)) ∧
    (∀ r, cur.rank = some r →
      ((r + delta < 1 ∨ ((catRanks store).length : Int) < r + delta) →
        moveSelectedCategory store name delta = (store, false)) ∧
      (1 ≤ r + delta → r + delta ≤ ((catRanks store).length : Int) →
        (moveSelectedCategory store name delta).2 = true ∧
        ∀ k, getKey (moveSelectedCategory store name delta).1 k =
          if k = name then some { cur with rank := some (r + delta) }
          else (getKey store k).map (fun d =>
            if d.rank = some (r + delta) then { d with rank := some r } else d))) := by
  refine ⟨?_, ?_⟩
  · intro hrank
    exact moveSelectedCategory_noop_unranked store name delta cur hget hrank
  · intro r hrank
    refine ⟨?_, ?_⟩
    · intro hcond
      exact moveSelectedCategory_noop_oob store name delta cur r hnd hcoh hdense hget
        hrank hcond
    · intro hlo hhi
      exact moveSelectedCategory_swap store name delta cur r hnd hcoh hdense hget
        hrank hlo hhi

/-- Witness for C7: moving `Work` down in the concrete store swaps the
ranks of `Work` and `Play`; moving bottom-ranked `Play` down is a no-op. -/
theorem claim_C7_witness :
    (moveSelectedCategory exStore "Work" 1).2 = true ∧
    getKey (moveSelectedCategory exStore "Work" 1).1 "Work"
      = some { exCatWork with rank := some 2 } ∧
    getKey (moveSelectedCategory exStore "Work" 1).1 "Play"
      = some { exCatPlay with rank := some 1 } ∧
    moveSelectedCategory exStore "Play" 1 = (exStore, false) := by
  have h := claim_C7 exStore "Work" 1 exCatWork (by decide) (by decide) (by decide) rfl
  have h2 := (h.2 1 rfl).2 (by decide) (by decide)
  have h3 := claim_C7 exStore "Play" 1 exCatPlay (by decide) (by decide) (by decide) rfl
  refine ⟨h2.1, ?_, ?_, ?_⟩
  · have hk := h2.2 "Work"
    rw [if_pos rfl] at hk
    exact hk.trans (by decide)
  · have hk := h2.2 "Play"
    rw [if_neg (by decide)] at hk
    exact hk.trans (by decide)
  · exact (h3.2 2 rfl).1 (by decide)

/-- C8: pruning keeps every key, leaves a category unchanged when all its
apps pass the installed predicate, otherwise keeps exactly the passing
apps in rank order with ranks renumbered densely 1..M, and reports true
exactly when some entry was removed somewhere. -/
theorem claim_C8 (p : String → Bool) (store : CategoryStore) :
    keysOf (cleanupCategories p store).1 = keysOf store ∧
    (∀ k c, getKey store k = some c →
      ((∀ a ∈ c.apps, p (desktopIdOf a.id) = true) →
        getKey (cleanupCategories p store).1 k = some c) ∧
      ((∃ a ∈ c.apps, p (desktopIdOf a.id) = false) →
        ∃ c', getKey (cleanupCategories p store).1 k = some c' ∧
          c'.name = c.name ∧ c'.rank = c.rank ∧
          ∃ s : List AppEntry, s.Perm (c.apps.filter (fun a => p (desktopIdOf a.id))) ∧
            s.Pairwise (fun a b => a.rank ≤ b.rank) ∧
            c'.apps.map (fun a => a.id) = s.map (fun a => a.id) ∧
            c'.apps.map (fun a => a.name) = s.map (fun a => a.name) ∧
            c'.apps.map (fun a => a.rank) = rankSeq s.length)) ∧
    ((cleanupCategories p store).2 = true ↔
      ∃ e ∈ store, ∃ a ∈ e.2.apps, p (desktopIdOf a.id) = false) := by
  refine ⟨keysOf_map_snd (cleanupCategory p) store, ?_,
    cleanupCategories_changed_iff p store⟩
  intro k c hget
  have hgm : getKey (cleanupCategories p store).1 k = some (cleanupCategory p c) := by
    show getKey (store.map (fun e => (e.1, cleanupCategory p e.2))) k = _
    rw [getKey_map, hget]
    rfl
  constructor
  · intro hall
    rw [hgm, cleanupCategory_untouched p c hall]
  · intro hex
    exact ⟨cleanupCategory p c, hgm, cleanupCategory_name p c, cleanupCategory_rank p c,
      cleanupCategory_spec_changed p c hex⟩

/-- Witness for C8 at the concrete store with every app uninstalled: the
`Work` app is removed and the change is reported. -/
theorem claim_C8_witness :
    getKey exStore "Work" = some exCatWork ∧
    (∃ a ∈ exCatWork.apps, (fun _ => false) (desktopIdOf a.id) = false) ∧
    (∃ c', getKey (cleanupCategories (fun _ => false) exStore).1 "Work" = some c' ∧
      c'.name = exCatWork.name ∧ c'.rank = exCatWork.rank ∧
      ∃ s : List AppEntry, s.Perm (exCatWork.apps.filter (fun a => (fun _ => false) (desktopIdOf a.id))) ∧
        s.Pairwise (fun a b => a.rank ≤ b.rank) ∧
        c'.apps.map (fun a => a.id) = s.map (fun a => a.id) ∧
        c'.apps.map (fun a => a.name) = s.map (fun a => a.name) ∧
        c'.apps.map (fun a => a.rank) = rankSeq s.length) ∧
    (cleanupCategories (fun _ => false) exStore).2 = true := by
  have hex : ∃ a ∈ exCatWork.apps, (fun _ => false : String → Bool) (desktopIdOf a.id) = false :=
    ⟨⟨"a.desktop", "A", 1⟩, by decide, rfl⟩
  have h := claim_C8 (fun _ => false) exStore
  refine ⟨rfl, hex, (h.2.1 "Work" exCatWork rfl).2 hex, ?_⟩
  exact (h.2.2).mpr ⟨("Work", exCatWork), by decide, hex⟩

/-- C9: the recents file path differs from the categories file path under
the same base directory, so a recents save is never seen by the
categories-file watcher: its state is left untouched. -/
theorem claim_C9 (base : String) (now : Nat) (st : WatcherState) :
    recentsFilePathOf base ≠ categoriesFilePathOf base ∧
    watcherStepOnWrite (categoriesFilePathOf base) (recentsFilePathOf base) now st = st :=
  ⟨recents_path_ne_categories_path base, watcher_ignores_recents_write base now st⟩

/-- C10: bumping an empty id or an id without the `.desktop` suffix leaves
the recents list unchanged and performs no save. -/
theorem claim_C10 (id : String) (ts : Int) (l : List Json)
    (h : id = "" ∨ strEndsWith id ".desktop" = false) :
    bumpRecent id ts l = (l, false) :=
  bumpRecent_invalid id ts l h

/-- Witness for C10 at a concrete non-desktop id. -/
theorem claim_C10_witness :
    strEndsWith "firefox" ".desktop" = false ∧
    bumpRecent "firefox" 7 [exGoodRecent] = ([exGoodRecent], false) :=
  ⟨by decide, claim_C10 "firefox" 7 [exGoodRecent] (Or.inr (by decide))⟩

end StartMenu
